import Mathlib

/-!
Verification of the TypeScript-interface generator `api-specs/generate-types.py`.

The script reads a table of named OpenAPI model definitions and emits one
TypeScript `export interface` block per reachable model, dependencies first,
guarded by a shared visited set.

Embedding conventions (the Python code probes JSON dictionaries for optional
keys and tests them for truthiness):

* A string-valued key that is missing is represented by `""`; the code only
  ever tests such values for truthiness (`if prop_ref:` etc.) or compares them
  to non-empty literals, so a missing key and an empty string are
  observationally identical.
* The `enum` key is represented by a `List String`, with `[]` for a missing
  key; Python treats `None` and `[]` identically (`if enum:`).
* The `items` key is `Option Descriptor`; `none` stands both for a missing
  key and for an empty dictionary (both falsy, and the code reads only
  `$ref`, `type` and `format` from items).
* Python's in-place mutation of the shared `processed` set is rendered by
  threading the set through each call and uniting the caller's set with the
  callee's result (`processed ∪ r.2`); since the function only ever adds
  names (theorem `generate_interface_subset`), the union equals `r.2`.
* Brace characters inside string literals are written with `\x7b` / `\x7d`
  escapes; the strings are the same as in the source.
-/

/-- One property's schema (a "Field Descriptor"): the keys the generator reads
from a property dictionary (`type`, `format`, `$ref` as `ref`, `items`,
`enum`, `description`). `items` may itself hold a full descriptor. -/
structure Descriptor where
  type : String
  format : String
  ref : String
  items : Option Descriptor
  enum : List String
  description : String

/-- One named model definition (a "Schema Node"): `properties` in insertion
order, the `required` list and the optional `description`. -/
structure SchemaNode where
  properties : List (String × Descriptor)
  required : List String
  description : String

/-- The Definition Table: association list from fully-qualified model name to
its schema, as loaded from the spec document (`spec.get('definitions', {})`). -/
abbrev Defs := List (String × SchemaNode)

/-- `name.split('.')[-1]`: the final `.`-separated segment of a name — the
characters after the last `'.'`, the whole string when there is no dot, and
the empty string when the name ends with a dot (Python's `split` keeps empty
segments). Implemented as a character fold (each `'.'` restarts the current
segment) so that it evaluates inside the kernel. -/
def lastSegment (s : String) : String :=
  String.mk (s.data.foldl (fun acc c => if c = '.' then [] else acc ++ [c]) [])

/-- The `type_map` dictionary lookup with default `'unknown'`
(`type_map.get(prop_type, 'unknown')`). -/
def type_map (t : String) : String :=
  if t = "integer" then "number"
  else if t = "number" then "number"
  else if t = "string" then "string"
  else if t = "boolean" then "boolean"
  else if t = "object" then "Record<string, unknown>"
  else "unknown"

/-- The tail of `swagger_type_to_typescript` past the ref / enum / array
checks: table lookup plus the (no-op) `date-time` special case. -/
def primitive_type (prop_type prop_format : String) : String :=
  let base_type := type_map prop_type
  if prop_format = "date-time" ∧ base_type = "string" then "string" else base_type

/-- `f'"{e}"'`: a double-quoted enum literal. -/
def quoteLit (e : String) : String := "\"" ++ e ++ "\""

/-- `' | '.join([f'"{e}"' for e in enum])`. -/
def enumUnion (enum : List String) : String :=
  String.intercalate " | " (enum.map quoteLit)

/-- The `prop_type == 'array'` branch of `swagger_type_to_typescript`.
The source's recursive call there is
`swagger_type_to_typescript(item_type, prop_items.get('format'))`, passing
only the item's `type` and `format` (ref, items and enum default to absent);
it is inlined here: such a call returns `'unknown[]'` when the item's type is
`'array'` (its own items are not passed along) and the primitive mapping
otherwise. An item whose `type` key is missing yields `'unknown'` through the
same table default. -/
def array_render (prop_items : Option Descriptor) : String :=
  match prop_items with
  | some it =>
    if it.ref ≠ "" then lastSegment it.ref ++ "[]"
    else (if it.type = "array" then "unknown[]" else primitive_type it.type it.format) ++ "[]"
  | none => "unknown[]"

/-- `swagger_type_to_typescript`: the Type Mapper. Checks, in order: `$ref`
present, `enum` present, `type == 'array'`, then the primitive table. -/
def swagger_type_to_typescript (prop_type prop_format prop_ref : String)
    (prop_items : Option Descriptor) (enum : List String) : String :=
  if prop_ref ≠ "" then lastSegment prop_ref
  else if enum ≠ [] then enumUnion enum
  else if prop_type = "array" then array_render prop_items
  else primitive_type prop_type prop_format

/-- The Type Mapper applied to one descriptor's components, as at the call
site in `generate_interface`. -/
def tsTypeOf (d : Descriptor) : String :=
  swagger_type_to_typescript d.type d.format d.ref d.items d.enum

/-- `prop_desc.replace('\r\n', ' ').replace('\n', ' ').strip()`. -/
def cleanDesc (s : String) : String :=
  ((s.replace "\r\n" " ").replace "\n" " ").trim

/-- The declaration-level documentation block (lines 94-97 of the source):
emitted only when the description is truthy, and rendered verbatim. -/
def declDoc (description : String) : List String :=
  if description ≠ "" then ["/**", " * " ++ description, " */"] else []

/-- The lines emitted for one field (lines 109-126 of the source): an optional
normalized doc line, then `  <name><?>: <type>;` with `?` exactly when the
name is not in the `required` list. -/
def fieldLines (required_fields : List String) (prop_name : String) (d : Descriptor) :
    List String :=
  (if d.description ≠ "" then ["  /** " ++ cleanDesc d.description ++ " */"] else [])
  ++ ["  " ++ prop_name ++ (if prop_name ∈ required_fields then "" else "?")
      ++ ": " ++ tsTypeOf d ++ ";"]

/-- Ordering of property entries by field name, as produced by
`sorted(properties.items())` (dictionary keys are distinct, so the tuple
comparison is decided by the key). -/
def keyLe (a b : String × Descriptor) : Prop := a.1 ≤ b.1

instance : DecidableRel keyLe := fun a b => inferInstanceAs (Decidable (a.1 ≤ b.1))

instance : IsTotal (String × Descriptor) keyLe := ⟨fun a b => le_total a.1 b.1⟩

instance : IsTrans (String × Descriptor) keyLe :=
  ⟨fun _ _ _ h1 h2 => le_trans h1 h2⟩

/-- `sorted(properties.items())`. -/
def sortProps (props : List (String × Descriptor)) : List (String × Descriptor) :=
  List.insertionSort keyLe props

/-- The field lines of one declaration, fields sorted by name (the
`for prop_name, prop_details in sorted(properties.items())` loop). -/
def fieldSection (model_def : SchemaNode) : List String :=
  ((sortProps model_def.properties).map
    (fun pr => fieldLines model_def.required pr.1 pr.2)).flatten

/-- The header line of a declaration for a given fully-qualified name. -/
def hdr (name : String) : String :=
  "export interface " ++ lastSegment name ++ " \x7b"

/-- `items.get('$ref')` where `items = prop_details.get('items', {})`. -/
def itemRefOf (d : Descriptor) : String :=
  match d.items with
  | some it => it.ref
  | none => ""

/-- The names of the Definition Table, as a finite set. -/
def keyset (all : Defs) : Finset String := (all.map Prod.fst).toFinset

/-! Termination helpers: the recursion is bounded by the number of table
names not yet in the visited set. -/

theorem card_sdiff_le_of_subset {K p q : Finset String} (h : p ⊆ q) :
    (K \ q).card ≤ (K \ p).card :=
  Finset.card_le_card (Finset.sdiff_subset_sdiff (Finset.Subset.refl K) h)

theorem measure_insert_lt {K p : Finset String} {n : String} (h : n ∉ p) :
    2 * (K \ insert n p).card + 1 < 2 * ((insert n K \ p).card) := by
  by_cases hK : n ∈ K
  · have h1 : insert n K = K := Finset.insert_eq_self.mpr hK
    have h2 : K \ insert n p = (K \ p).erase n := by
      ext x
      simp only [Finset.mem_sdiff, Finset.mem_insert, Finset.mem_erase]
      tauto
    have h3 : n ∈ K \ p := Finset.mem_sdiff.mpr ⟨hK, h⟩
    have h4 : ((K \ p).erase n).card = (K \ p).card - 1 := Finset.card_erase_of_mem h3
    have h5 : 1 ≤ (K \ p).card := Finset.card_pos.mpr ⟨n, h3⟩
    rw [h1, h2, h4]
    omega
  · have h2 : K \ insert n p = K \ p := by
      ext x
      simp only [Finset.mem_sdiff, Finset.mem_insert]
      constructor
      · rintro ⟨hx, hc⟩
        exact ⟨hx, fun hp => hc (Or.inr hp)⟩
      · rintro ⟨hx, hc⟩
        refine ⟨hx, fun hp => ?_⟩
        rcases hp with h1 | h1
        · exact hK (h1 ▸ hx)
        · exact hc h1
    have h3 : insert n K \ p = insert n (K \ p) := Finset.insert_sdiff_of_not_mem K h
    have h4 : n ∉ K \ p := fun hc => hK (Finset.mem_sdiff.mp hc).1
    rw [h2, h3, Finset.card_insert_of_not_mem h4]
    omega

theorem measure_dep_lt {K p q : Finset String} {y : String} (hy : y ∈ K) (h : p ⊆ q) :
    2 * ((insert y K \ q).card) < 2 * ((K \ p).card) + 1 := by
  rw [Finset.insert_eq_self.mpr hy]
  have := card_sdiff_le_of_subset (K := K) h
  omega

theorem lex_of_le_of_lt {a b c d : Nat} (h1 : a ≤ c) (h2 : b < d) :
    Prod.Lex (· < ·) (· < ·) (a, b) (c, d) := by
  rcases lt_or_eq_of_le h1 with h | h
  · exact Prod.Lex.left _ _ h
  · subst h
    exact Prod.Lex.right _ h2

theorem subset_union_extend {p q r : Finset String} (h : p ⊆ q) : p ⊆ q ∪ r :=
  Finset.Subset.trans h Finset.subset_union_left

theorem mem_keyset_of_lookup' {all : Defs} {n : String} {d : SchemaNode}
    (h : all.lookup n = some d) : n ∈ keyset all := by
  induction all with
  | nil => simp [List.lookup] at h
  | cons e rest ih =>
    obtain ⟨k, v⟩ := e
    by_cases hk : n == k
    · have : n = k := eq_of_beq hk
      subst this
      simp [keyset]
    · simp only [List.lookup, hk] at h
      have := ih h
      simp only [keyset, List.map_cons, List.toFinset_cons, Finset.mem_insert]
      right
      simpa [keyset] using this

theorem mem_keyset_of_isSome {all : Defs} {n : String}
    (h : (all.lookup n).isSome = true) : n ∈ keyset all := by
  cases hL : all.lookup n with
  | none => rw [hL] at h; simp at h
  | some d => exact mem_keyset_of_lookup' hL

mutual

/-- `generate_interface(model_name, model_def, all_definitions, processed)`:
skip if already visited, mark visited, return nothing for an empty property
dictionary, otherwise emit each dependency first (a field's `$ref`, then an
array field's item `$ref`, each only when truthy and present in the table),
then the declaration itself. -/
def generate_interface (all : Defs) (model_name : String) (model_def : SchemaNode)
    (processed : Finset String) : List String × Finset String :=
  if model_name ∈ processed then ([], processed)
  else
    let processed1 := insert model_name processed
    match model_def.properties with
    | [] => ([], processed1)
    | _ :: _ =>
      let r := genDeps all model_def.properties [] processed1
      (r.1 ++ declDoc model_def.description
          ++ [hdr model_name]
          ++ fieldSection model_def
          ++ ["\x7d", ""],
       r.2)
termination_by (2 * ((insert model_name (keyset all)) \ processed).card, 0)
decreasing_by
  apply Prod.Lex.left
  exact measure_insert_lt (by assumption)

/-- The dependency loop of `generate_interface` (lines 79-91 of the source):
for each property in input order, recurse into its `$ref` target and then into
its array item's `$ref` target, each when truthy and present in the table,
accumulating output lines and the visited set. -/
def genDeps (all : Defs) (props : List (String × Descriptor)) (lines : List String)
    (processed : Finset String) : List String × Finset String :=
  match props with
  | [] => (lines, processed)
  | (_, d) :: rest =>
    let s1 : List String × Finset String :=
      if d.ref ≠ "" then
        if h1 : (all.lookup d.ref).isSome then
          let r := generate_interface all d.ref ((all.lookup d.ref).get h1) processed
          (lines ++ r.1, processed ∪ r.2)
        else (lines, processed)
      else (lines, processed)
    let s2 : List String × Finset String :=
      if d.type = "array" ∧ itemRefOf d ≠ "" then
        if h2 : (all.lookup (itemRefOf d)).isSome then
          let r := generate_interface all (itemRefOf d) ((all.lookup (itemRefOf d)).get h2) s1.2
          (s1.1 ++ r.1, s1.2 ∪ r.2)
        else s1
      else s1
    genDeps all rest s2.1 s2.2
termination_by (2 * ((keyset all) \ processed).card + 1, props.length)
decreasing_by
  · apply Prod.Lex.left
    exact measure_dep_lt (mem_keyset_of_isSome (by assumption)) (Finset.Subset.refl _)
  · apply Prod.Lex.left
    apply measure_dep_lt (mem_keyset_of_isSome (by assumption))
    repeat' split
    all_goals first
      | exact Finset.Subset.refl _
      | exact Finset.subset_union_left
      | exact subset_union_extend Finset.subset_union_left
  · apply lex_of_le_of_lt
    · refine Nat.succ_le_succ (Nat.mul_le_mul_left 2 (card_sdiff_le_of_subset ?_))
      repeat' split
      all_goals first
        | exact Finset.Subset.refl _
        | exact Finset.subset_union_left
        | exact subset_union_extend Finset.subset_union_left
    · simp [List.length_cons]

end

/-- The root loop of `main` (lines 192-195 of the source): for each requested
model name, if it is in the definition table, generate its interface against
the shared visited set and append the lines. -/
def generateAll (all : Defs) (roots : List String) (lines : List String)
    (processed : Finset String) : List String × Finset String :=
  match roots with
  | [] => (lines, processed)
  | r :: rest =>
    match all.lookup r with
    | some d =>
      let res := generate_interface all r d processed
      generateAll all rest (lines ++ res.1) res.2
    | none => generateAll all rest lines processed

/-- One generation run: a fresh empty visited set (`processed = set()`), then
the root loop. Returns the model-derived output lines and the final visited
set. -/
def run (all : Defs) (roots : List String) : List String × Finset String :=
  generateAll all roots [] ∅

/-! ## Shape lemmas: the three cases of `generate_interface` and the body of
one `genDeps` loop iteration, restated as rewrite rules. -/

/-- One recursive invocation of `generate_interface` from the dependency loop,
together with the appending of its lines and the union of its visited set. -/
def callStep (all : Defs) (y : String) (dd : SchemaNode)
    (st : List String × Finset String) : List String × Finset String :=
  (st.1 ++ (generate_interface all y dd st.2).1,
   st.2 ∪ (generate_interface all y dd st.2).2)

/-- The direct-reference half of one dependency-loop iteration
(`if prop_ref and prop_ref in all_definitions: ...`). -/
def refStep (all : Defs) (d : Descriptor) (st : List String × Finset String) :
    List String × Finset String :=
  if d.ref ≠ "" then
    if h1 : (all.lookup d.ref).isSome then
      callStep all d.ref ((all.lookup d.ref).get h1) st
    else st
  else st

/-- The array-item half of one dependency-loop iteration
(`if prop_details.get('type') == 'array': ... if item_ref and item_ref in ...`). -/
def arrStep (all : Defs) (d : Descriptor) (st : List String × Finset String) :
    List String × Finset String :=
  if d.type = "array" ∧ itemRefOf d ≠ "" then
    if h2 : (all.lookup (itemRefOf d)).isSome then
      callStep all (itemRefOf d) ((all.lookup (itemRefOf d)).get h2) st
    else st
  else st

/-- Processing one property of the dependency loop: the body of one
iteration of `genDeps`, as a state transformer. -/
def depStep (all : Defs) (d : Descriptor) (st : List String × Finset String) :
    List String × Finset String :=
  arrStep all d (refStep all d st)

theorem gi_visited {all : Defs} {n : String} {d : SchemaNode} {p : Finset String}
    (h : n ∈ p) : generate_interface all n d p = ([], p) := by
  unfold generate_interface
  rw [if_pos h]

theorem gi_empty {all : Defs} {n : String} {d : SchemaNode} {p : Finset String}
    (h : n ∉ p) (he : d.properties = []) :
    generate_interface all n d p = ([], insert n p) := by
  unfold generate_interface
  rw [if_neg h]
  simp only [he]

theorem gi_main {all : Defs} {n : String} {d : SchemaNode} {p : Finset String}
    (h : n ∉ p) (hne : d.properties ≠ []) :
    generate_interface all n d p =
      ((genDeps all d.properties [] (insert n p)).1 ++ declDoc d.description
        ++ [hdr n] ++ fieldSection d ++ ["\x7d", ""],
       (genDeps all d.properties [] (insert n p)).2) := by
  unfold generate_interface
  rw [if_neg h]
  obtain ⟨props, req, desc⟩ := d
  cases props with
  | nil => simp at hne
  | cons a l => rfl

theorem genDeps_nil {all : Defs} {lines : List String} {p : Finset String} :
    genDeps all [] lines p = (lines, p) := by
  unfold genDeps
  rfl

theorem genDeps_cons {all : Defs} {nm : String} {d : Descriptor}
    {rest : List (String × Descriptor)} {lines : List String} {p : Finset String} :
    genDeps all ((nm, d) :: rest) lines p =
      genDeps all rest (depStep all d (lines, p)).1 (depStep all d (lines, p)).2 := by
  rw [genDeps, depStep, arrStep, refStep]
  rfl

theorem refStep_spec (all : Defs) (d : Descriptor) (st : List String × Finset String) :
    refStep all d st = st
    ∨ (∃ dd, d.ref ≠ "" ∧ all.lookup d.ref = some dd ∧
        refStep all d st = callStep all d.ref dd st) := by
  unfold refStep
  by_cases hr : d.ref ≠ ""
  · rw [if_pos hr]
    by_cases h1 : (all.lookup d.ref).isSome
    · rw [dif_pos h1]
      right
      exact ⟨(all.lookup d.ref).get h1, hr, (Option.some_get h1).symm, rfl⟩
    · rw [dif_neg h1]
      left; rfl
  · rw [if_neg hr]
    left; rfl

theorem arrStep_spec (all : Defs) (d : Descriptor) (st : List String × Finset String) :
    arrStep all d st = st
    ∨ (∃ dd, (d.type = "array" ∧ itemRefOf d ≠ "") ∧
        all.lookup (itemRefOf d) = some dd ∧
        arrStep all d st = callStep all (itemRefOf d) dd st) := by
  unfold arrStep
  by_cases hr : d.type = "array" ∧ itemRefOf d ≠ ""
  · rw [if_pos hr]
    by_cases h2 : (all.lookup (itemRefOf d)).isSome
    · rw [dif_pos h2]
      right
      exact ⟨(all.lookup (itemRefOf d)).get h2, hr, (Option.some_get h2).symm, rfl⟩
    · rw [dif_neg h2]
      left; rfl
  · rw [if_neg hr]
    left; rfl

theorem callStep_subset {all : Defs} {y : String} {dd : SchemaNode}
    {st : List String × Finset String} : st.2 ⊆ (callStep all y dd st).2 :=
  Finset.subset_union_left

theorem refStep_subset {all : Defs} {d : Descriptor} (st : List String × Finset String) :
    st.2 ⊆ (refStep all d st).2 := by
  rcases refStep_spec all d st with h | ⟨dd, _, _, h⟩
  · rw [h]
  · rw [h]; exact callStep_subset

theorem arrStep_subset {all : Defs} {d : Descriptor} (st : List String × Finset String) :
    st.2 ⊆ (arrStep all d st).2 := by
  rcases arrStep_spec all d st with h | ⟨dd, _, _, h⟩
  · rw [h]
  · rw [h]; exact callStep_subset

theorem depStep_subset {all : Defs} {d : Descriptor} (st : List String × Finset String) :
    st.2 ⊆ (depStep all d st).2 :=
  Finset.Subset.trans (refStep_subset st) (arrStep_subset (refStep all d st))

theorem genDeps_subset {all : Defs} {props : List (String × Descriptor)} :
    ∀ {lines : List String} {p : Finset String}, p ⊆ (genDeps all props lines p).2 := by
  induction props with
  | nil => intro lines p; rw [genDeps_nil]
  | cons pr rest ih =>
    intro lines p
    obtain ⟨nm, d⟩ := pr
    rw [genDeps_cons]
    exact Finset.Subset.trans (depStep_subset (lines, p)) ih

/-- The generator only ever adds names to the visited set. -/
theorem generate_interface_subset {all : Defs} {n : String} {d : SchemaNode}
    {p : Finset String} : p ⊆ (generate_interface all n d p).2 := by
  by_cases h : n ∈ p
  · rw [gi_visited h]
  · by_cases he : d.properties = []
    · rw [gi_empty h he]
      exact Finset.subset_insert n p
    · rw [gi_main h he]
      exact Finset.Subset.trans (Finset.subset_insert n p) genDeps_subset

/-- The name passed to `generate_interface` is in the resulting visited set. -/
theorem gi_mem_self {all : Defs} {n : String} {d : SchemaNode} {p : Finset String} :
    n ∈ (generate_interface all n d p).2 := by
  by_cases h : n ∈ p
  · rw [gi_visited h]; exact h
  · by_cases he : d.properties = []
    · rw [gi_empty h he]
      exact Finset.mem_insert_self n p
    · rw [gi_main h he]
      exact genDeps_subset (Finset.mem_insert_self n p)

theorem generateAll_subset {all : Defs} {roots : List String} :
    ∀ {lines : List String} {p : Finset String}, p ⊆ (generateAll all roots lines p).2 := by
  induction roots with
  | nil => intro lines p; rw [generateAll]
  | cons r rest ih =>
    intro lines p
    rw [generateAll]
    cases hL : all.lookup r with
    | none => exact ih
    | some d =>
      exact Finset.Subset.trans generate_interface_subset ih

/-! ## Accumulator independence: the `lines` argument is only a prefix of the
result; the visited set is independent of it. -/

theorem refStep_acc (all : Defs) (d : Descriptor) (st : List String × Finset String) :
    refStep all d st =
      (st.1 ++ (refStep all d ([], st.2)).1, (refStep all d ([], st.2)).2) := by
  unfold refStep
  by_cases hr : d.ref ≠ ""
  · simp only [if_pos hr]
    by_cases h1 : (all.lookup d.ref).isSome
    · simp only [dif_pos h1, callStep]
      simp
    · simp only [dif_neg h1]
      simp
  · simp only [if_neg hr]
    simp

theorem arrStep_acc (all : Defs) (d : Descriptor) (st : List String × Finset String) :
    arrStep all d st =
      (st.1 ++ (arrStep all d ([], st.2)).1, (arrStep all d ([], st.2)).2) := by
  unfold arrStep
  by_cases hr : d.type = "array" ∧ itemRefOf d ≠ ""
  · simp only [if_pos hr]
    by_cases h2 : (all.lookup (itemRefOf d)).isSome
    · simp only [dif_pos h2, callStep]
      simp
    · simp only [dif_neg h2]
      simp
  · simp only [if_neg hr]
    simp

theorem depStep_acc (all : Defs) (d : Descriptor) (st : List String × Finset String) :
    depStep all d st =
      (st.1 ++ (depStep all d ([], st.2)).1, (depStep all d ([], st.2)).2) := by
  unfold depStep
  rw [refStep_acc all d st, arrStep_acc all d (st.1 ++ _, _)]
  rw [arrStep_acc all d (refStep all d ([], st.2))]
  simp [List.append_assoc]

theorem genDeps_acc (all : Defs) (props : List (String × Descriptor)) :
    ∀ (lines : List String) (p : Finset String),
      genDeps all props lines p =
        (lines ++ (genDeps all props [] p).1, (genDeps all props [] p).2) := by
  induction props with
  | nil =>
    intro lines p
    rw [genDeps_nil, genDeps_nil]
    simp
  | cons pr rest ih =>
    intro lines p
    obtain ⟨nm, d⟩ := pr
    rw [genDeps_cons, genDeps_cons]
    rw [depStep_acc all d (lines, p)]
    rw [ih ((lines, p).1 ++ (depStep all d ([], (lines, p).2)).1) _]
    rw [ih (depStep all d ([], p)).1 _]
    simp [List.append_assoc]

theorem generateAll_acc (all : Defs) (roots : List String) :
    ∀ (lines : List String) (p : Finset String),
      generateAll all roots lines p =
        (lines ++ (generateAll all roots [] p).1, (generateAll all roots [] p).2) := by
  induction roots with
  | nil =>
    intro lines p
    rw [generateAll, generateAll]
    simp
  | cons r rest ih =>
    intro lines p
    rw [generateAll, generateAll]
    cases hL : all.lookup r with
    | none => exact ih lines p
    | some d =>
      simp only
      rw [ih (lines ++ (generate_interface all r d p).1) _]
      rw [ih ([] ++ (generate_interface all r d p).1) _]
      simp [List.append_assoc]

/-! ## Bound on the visited set: only table names (plus the argument name)
are ever added. -/

theorem insert_union_absorb {q K : Finset String} {y : String} (hy : y ∈ K) :
    insert y (q ∪ K) = q ∪ K :=
  Finset.insert_eq_self.mpr (Finset.mem_union_right _ hy)

theorem keys_bound (N : Nat) :
    (∀ (all : Defs) (n : String) (d : SchemaNode) (p : Finset String),
        2 * ((insert n (keyset all)) \ p).card ≤ N →
        (generate_interface all n d p).2 ⊆ insert n (p ∪ keyset all))
    ∧ (∀ (all : Defs) (props : List (String × Descriptor)) (lines : List String)
        (p : Finset String),
        2 * ((keyset all) \ p).card + 1 ≤ N →
        (genDeps all props lines p).2 ⊆ p ∪ keyset all) := by
  induction N with
  | zero =>
    constructor
    · intro all n d p hN
      have hn : n ∈ p := by
        by_contra hc
        have : n ∈ insert n (keyset all) \ p :=
          Finset.mem_sdiff.mpr ⟨Finset.mem_insert_self _ _, hc⟩
        have : 0 < ((insert n (keyset all)) \ p).card := Finset.card_pos.mpr ⟨n, this⟩
        omega
      rw [gi_visited hn]
      exact fun x hx => Finset.mem_insert_of_mem (Finset.mem_union_left _ hx)
    · intro all props lines p hN
      omega
  | succ N ih =>
    constructor
    · intro all n d p hN
      by_cases hn : n ∈ p
      · rw [gi_visited hn]
        exact fun x hx => Finset.mem_insert_of_mem (Finset.mem_union_left _ hx)
      · by_cases he : d.properties = []
        · rw [gi_empty hn he]
          intro x hx
          rcases Finset.mem_insert.mp hx with h | h
          · exact h ▸ Finset.mem_insert_self _ _
          · exact Finset.mem_insert_of_mem (Finset.mem_union_left _ h)
        · rw [gi_main hn he]
          have hle : 2 * ((keyset all) \ insert n p).card + 1 ≤ N := by
            have := measure_insert_lt (K := keyset all) (p := p) hn
            omega
          have := ih.2 all d.properties [] (insert n p) hle
          rw [Finset.insert_union] at this
          exact this
    · intro all props
      induction props with
      | nil =>
        intro lines p hN
        rw [genDeps_nil]
        exact Finset.subset_union_left
      | cons pr rest ihp =>
        intro lines p hN
        obtain ⟨nm, d⟩ := pr
        rw [genDeps_cons]
        have hstep : (depStep all d (lines, p)).2 ⊆ p ∪ keyset all := by
          unfold depStep
          have hs1 : (refStep all d (lines, p)).2 ⊆ p ∪ keyset all := by
            rcases refStep_spec all d (lines, p) with h | ⟨dd, _, hL, h⟩
            · rw [h]; exact Finset.subset_union_left
            · rw [h]
              unfold callStep
              have hy : d.ref ∈ keyset all := mem_keyset_of_lookup' hL
              have hgi : (generate_interface all d.ref dd p).2 ⊆
                  insert d.ref (p ∪ keyset all) := by
                apply ih.1
                rw [Finset.insert_eq_self.mpr hy]
                omega
              rw [insert_union_absorb hy] at hgi
              exact Finset.union_subset Finset.subset_union_left hgi
          rcases arrStep_spec all d (refStep all d (lines, p)) with h | ⟨dd, _, hL, h⟩
          · rw [h]; exact hs1
          · rw [h]
            unfold callStep
            have hy : itemRefOf d ∈ keyset all := mem_keyset_of_lookup' hL
            have hsub : p ⊆ (refStep all d (lines, p)).2 :=
              refStep_subset (lines, p)
            have hgi : (generate_interface all (itemRefOf d) dd
                (refStep all d (lines, p)).2).2 ⊆
                insert (itemRefOf d) ((refStep all d (lines, p)).2 ∪ keyset all) := by
              apply ih.1
              rw [Finset.insert_eq_self.mpr hy]
              have := card_sdiff_le_of_subset (K := keyset all) hsub
              omega
            rw [insert_union_absorb hy] at hgi
            refine Finset.union_subset hs1 (Finset.Subset.trans hgi ?_)
            exact Finset.union_subset
              (Finset.Subset.trans hs1 (Finset.Subset.refl _)) Finset.subset_union_right
        have hbound : 2 * ((keyset all) \ (depStep all d (lines, p)).2).card + 1 ≤ N + 1 := by
          have hsub : p ⊆ (depStep all d (lines, p)).2 :=
            depStep_subset (lines, p)
          have := card_sdiff_le_of_subset (K := keyset all) hsub
          omega
        have := ihp (depStep all d (lines, p)).1 (depStep all d (lines, p)).2 hbound
        exact Finset.Subset.trans this (Finset.union_subset hstep Finset.subset_union_right)

/-- Every name in the visited set after a `generate_interface` call was there
before, is the argument name, or is a table name. -/
theorem generate_interface_keys {all : Defs} {n : String} {d : SchemaNode}
    {p : Finset String} :
    (generate_interface all n d p).2 ⊆ insert n (p ∪ keyset all) :=
  (keys_bound (2 * ((insert n (keyset all)) \ p).card)).1 all n d p (le_refl _)

theorem genDeps_keys {all : Defs} {props : List (String × Descriptor)}
    {lines : List String} {p : Finset String} :
    (genDeps all props lines p).2 ⊆ p ∪ keyset all :=
  (keys_bound (2 * ((keyset all) \ p).card + 1)).2 all props lines p (le_refl _)

theorem generateAll_keys {all : Defs} {roots : List String} :
    ∀ {lines : List String} {p : Finset String},
      (generateAll all roots lines p).2 ⊆ p ∪ keyset all := by
  induction roots with
  | nil =>
    intro lines p
    rw [generateAll]
    exact Finset.subset_union_left
  | cons r rest ih =>
    intro lines p
    rw [generateAll]
    cases hL : all.lookup r with
    | none => exact ih
    | some d =>
      simp only
      refine Finset.Subset.trans ih ?_
      have hy : r ∈ keyset all := mem_keyset_of_lookup' hL
      have h3 : (generate_interface all r d p).2 ⊆ insert r (p ∪ keyset all) :=
        generate_interface_keys
      rw [insert_union_absorb hy] at h3
      exact Finset.union_subset h3 Finset.subset_union_right

/-- Only table names end up in the visited set of a run. -/
theorem run_keys {all : Defs} {roots : List String} :
    (run all roots).2 ⊆ keyset all := by
  have h : (generateAll all roots [] ∅).2 ⊆ ∅ ∪ keyset all := generateAll_keys
  simpa [run] using h

/-! ## Line shapes: a declaration header line is distinguishable from every
other kind of emitted line by its first character. -/

theorem ne_of_head {s t : String} (h : s.data.head? ≠ t.data.head?) : s ≠ t :=
  fun e => h (e ▸ rfl)

theorem hdr_head (m : String) : (hdr m).data.head? = some 'e' := by
  unfold hdr
  simp only [String.data_append, List.append_assoc]
  rfl

theorem hdr_ne_close (m : String) : hdr m ≠ "\x7d" := by
  apply ne_of_head
  rw [hdr_head]
  decide

theorem hdr_ne_empty (m : String) : hdr m ≠ "" := by
  apply ne_of_head
  rw [hdr_head]
  decide

theorem hdr_ne_open_comment (m : String) : hdr m ≠ "/**" := by
  apply ne_of_head
  rw [hdr_head]
  decide

theorem hdr_ne_close_comment (m : String) : hdr m ≠ " */" := by
  apply ne_of_head
  rw [hdr_head]
  decide

theorem hdr_ne_desc_line (m : String) (desc : String) : hdr m ≠ " * " ++ desc := by
  apply ne_of_head
  rw [hdr_head]
  have : (" * " ++ desc).data.head? = some ' ' := by
    simp only [String.data_append, List.append_assoc]
    rfl
  rw [this]
  decide

theorem fieldLines_head {req : List String} {nm : String} {d : Descriptor} :
    ∀ l ∈ fieldLines req nm d, l.data.head? = some ' ' := by
  intro l hl
  unfold fieldLines at hl
  rcases List.mem_append.mp hl with h | h
  · by_cases hd : d.description ≠ ""
    · rw [if_pos hd] at h
      rcases List.mem_singleton.mp h with rfl
      simp only [String.data_append, List.append_assoc]
      rfl
    · rw [if_neg hd] at h
      simp at h
  · rcases List.mem_singleton.mp h with rfl
    simp only [String.data_append, List.append_assoc]
    rfl

theorem hdr_notMem_declDoc (m : String) (desc : String) : hdr m ∉ declDoc desc := by
  unfold declDoc
  by_cases hd : desc ≠ ""
  · rw [if_pos hd]
    intro h
    rcases List.mem_cons.mp h with h | h
    · exact hdr_ne_open_comment m h
    rcases List.mem_cons.mp h with h | h
    · exact hdr_ne_desc_line m desc h
    rcases List.mem_singleton.mp h with h
    exact hdr_ne_close_comment m h
  · rw [if_neg hd]
    simp

theorem hdr_notMem_fieldSection (m : String) (model_def : SchemaNode) :
    hdr m ∉ fieldSection model_def := by
  unfold fieldSection
  intro h
  rcases List.mem_flatten.mp h with ⟨l, hl, hmem⟩
  rcases List.mem_map.mp hl with ⟨pr, _, rfl⟩
  have := fieldLines_head _ hmem
  rw [hdr_head] at this
  exact absurd this (by decide)

theorem count_declDoc (m : String) (desc : String) :
    (declDoc desc).count (hdr m) = 0 :=
  List.count_eq_zero.mpr (hdr_notMem_declDoc m desc)

theorem count_fieldSection (m : String) (model_def : SchemaNode) :
    (fieldSection model_def).count (hdr m) = 0 :=
  List.count_eq_zero.mpr (hdr_notMem_fieldSection m model_def)

theorem count_closing (m : String) : (["\x7d", ""] : List String).count (hdr m) = 0 := by
  apply List.count_eq_zero.mpr
  intro h
  rcases List.mem_cons.mp h with h | h
  · exact hdr_ne_close m h
  rcases List.mem_singleton.mp h with h
  exact hdr_ne_empty m h

/-! ## Counting declaration headers. -/

/-- Distinct table names have distinct short names, hence distinct header
lines (the generator names declarations only by the final segment). -/
def SNI (all : Defs) : Prop :=
  ∀ x ∈ keyset all, ∀ y ∈ keyset all, hdr x = hdr y → x = y

instance : DecidablePred SNI := fun all =>
  inferInstanceAs (Decidable (∀ x ∈ keyset all, ∀ y ∈ keyset all, hdr x = hdr y → x = y))

/-- The property list of a table name (empty when the name is absent). -/
def propsOf (all : Defs) (m : String) : List (String × Descriptor) :=
  match all.lookup m with
  | some dd => dd.properties
  | none => []

theorem propsOf_eq_of_lookup {all : Defs} {n : String} {d : SchemaNode}
    (h : all.lookup n = some d) : propsOf all n = d.properties := by
  unfold propsOf
  rw [h]

theorem union_eq_right_of_call {all : Defs} {y : String} {dd : SchemaNode}
    {q : Finset String} : q ∪ (generate_interface all y dd q).2 =
      (generate_interface all y dd q).2 :=
  Finset.union_eq_right.mpr generate_interface_subset

theorem ind_chain {m : String} {p q f : Finset String} (hpq : p ⊆ q) (hqf : q ⊆ f)
    (P : Prop) [Decidable P] :
    ((if m ∈ q ∧ m ∉ p ∧ P then 1 else 0) + (if m ∈ f ∧ m ∉ q ∧ P then 1 else 0) : Nat)
      = if m ∈ f ∧ m ∉ p ∧ P then 1 else 0 := by
  by_cases hP : P
  · by_cases h1 : m ∈ q
    · have h2 : m ∈ f := hqf h1
      by_cases h3 : m ∈ p
      · have : m ∈ q := hpq h3
        simp [h1, h2, h3, hP]
      · simp [h1, h2, h3, hP]
    · by_cases h3 : m ∈ p
      · exact absurd (hpq h3) h1
      · by_cases h2 : m ∈ f
        · simp [h1, h2, h3, hP]
        · simp [h1, h2, h3, hP]
  · simp [hP]


theorem count_single {a b : String} : ([b] : List String).count a = if a = b then 1 else 0 := by
  by_cases h : a = b
  · subst h
    simp [List.count_cons]
  · simp [List.count_cons, h, Ne.symm h]

/-- The name has a definition with a non-empty property dictionary: exactly
the names for which a declaration block is emitted once visited. -/
def hasProps (all : Defs) (m : String) : Prop := propsOf all m ≠ []

instance : ∀ (all : Defs) (m : String), Decidable (hasProps all m) := fun all m =>
  match h : propsOf all m with
  | [] => isFalse (by simp [hasProps, h])
  | _ :: _ => isTrue (by simp [hasProps, h])

theorem hasProps_of_lookup {all : Defs} {n : String} {d : SchemaNode}
    (h : all.lookup n = some d) (hne : d.properties ≠ []) : hasProps all n := by
  unfold hasProps
  rw [propsOf_eq_of_lookup h]
  exact hne

theorem not_hasProps_of_lookup {all : Defs} {n : String} {d : SchemaNode}
    (h : all.lookup n = some d) (hne : d.properties = []) : ¬ hasProps all n := by
  unfold hasProps
  rw [propsOf_eq_of_lookup h, hne]
  simp

theorem ind_chain' {m : String} {p q f : Finset String} (hpq : p ⊆ q) (hqf : q ⊆ f)
    (P : Prop) [Decidable P] :
    ((if m ∈ q ∧ m ∉ p ∧ P then 1 else 0) + (if m ∈ f ∧ m ∉ q ∧ P then 1 else 0) : Nat)
      = if m ∈ f ∧ m ∉ p ∧ P then 1 else 0 :=
  ind_chain hpq hqf P

theorem count_bound (N : Nat) :
    (∀ (all : Defs) (n : String) (d : SchemaNode) (p : Finset String) (m : String),
        all.lookup n = some d → SNI all → m ∈ keyset all →
        2 * ((insert n (keyset all)) \ p).card ≤ N →
        ((generate_interface all n d p).1).count (hdr m) =
          if m ∈ (generate_interface all n d p).2 ∧ m ∉ p ∧ hasProps all m
          then 1 else 0)
    ∧ (∀ (all : Defs) (props : List (String × Descriptor)) (lines : List String)
        (p : Finset String) (m : String), SNI all → m ∈ keyset all →
        2 * ((keyset all) \ p).card + 1 ≤ N →
        ((genDeps all props lines p).1).count (hdr m) =
          lines.count (hdr m) +
          (if m ∈ (genDeps all props lines p).2 ∧ m ∉ p ∧ hasProps all m
           then 1 else 0)) := by
  induction N with
  | zero =>
    constructor
    · intro all n d p m hn hS hm hN
      have hmem : n ∈ p := by
        by_contra hc
        have h1 : n ∈ insert n (keyset all) \ p :=
          Finset.mem_sdiff.mpr ⟨Finset.mem_insert_self _ _, hc⟩
        have : 0 < ((insert n (keyset all)) \ p).card := Finset.card_pos.mpr ⟨n, h1⟩
        omega
      rw [gi_visited hmem]
      rw [if_neg (by rintro ⟨h1, h2, _⟩; exact h2 h1)]
      simp
    · intro all props lines p m hS hm hN
      omega
  | succ N ih =>
    constructor
    · intro all n d p m hn hS hm hN
      have hnK : n ∈ keyset all := mem_keyset_of_lookup' hn
      by_cases hmem : n ∈ p
      · rw [gi_visited hmem]
        rw [if_neg (by rintro ⟨h1, h2, _⟩; exact h2 h1)]
        simp
      · by_cases he : d.properties = []
        · rw [gi_empty hmem he]
          have hnot : ¬ (m ∈ insert n p ∧ m ∉ p ∧ hasProps all m) := by
            rintro ⟨h1, h2, h3⟩
            rcases Finset.mem_insert.mp h1 with h | h
            · subst h
              exact not_hasProps_of_lookup hn he h3
            · exact h2 h
          rw [if_neg hnot]
          simp
        · rw [gi_main hmem he]
          have hle : 2 * ((keyset all) \ insert n p).card + 1 ≤ N := by
            have := measure_insert_lt (K := keyset all) (p := p) hmem
            omega
          have hgd := ih.2 all d.properties [] (insert n p) m hS hm hle
          rw [List.count_nil] at hgd
          rw [List.count_append, List.count_append, List.count_append,
            List.count_append, count_declDoc, count_single, count_fieldSection,
            count_closing, hgd]
          have hiff : hdr m = hdr n ↔ m = n := by
            constructor
            · intro h
              exact hS m hm n hnK h
            · intro h
              rw [h]
          by_cases hmn : m = n
          · subst hmn
            have h1 : ¬ (m ∈ (genDeps all d.properties [] (insert m p)).2 ∧
                m ∉ insert m p ∧ hasProps all m) := by
              rintro ⟨_, h2, _⟩
              exact h2 (Finset.mem_insert_self _ _)
            rw [if_neg h1, if_pos (hiff.mpr rfl)]
            have h2 : m ∈ (genDeps all d.properties [] (insert m p)).2 ∧
                m ∉ p ∧ hasProps all m :=
              ⟨genDeps_subset (Finset.mem_insert_self _ _), hmem,
                hasProps_of_lookup hn he⟩
            rw [if_pos h2]
          · rw [if_neg (fun h => hmn (hiff.mp h))]
            by_cases hc : m ∈ (genDeps all d.properties [] (insert n p)).2 ∧
                m ∉ p ∧ hasProps all m
            · have hc' : m ∈ (genDeps all d.properties [] (insert n p)).2 ∧
                  m ∉ insert n p ∧ hasProps all m := by
                refine ⟨hc.1, ?_, hc.2.2⟩
                rw [Finset.mem_insert]
                push_neg
                exact ⟨hmn, hc.2.1⟩
              rw [if_pos hc, if_pos hc']
            · have hc' : ¬ (m ∈ (genDeps all d.properties [] (insert n p)).2 ∧
                  m ∉ insert n p ∧ hasProps all m) := by
                rintro ⟨h1, h2, h3⟩
                refine hc ⟨h1, ?_, h3⟩
                intro hp
                exact h2 (Finset.mem_insert_of_mem hp)
              rw [if_neg hc, if_neg hc']
    · intro all props
      induction props with
      | nil =>
        intro lines p m hS hm hN
        rw [genDeps_nil]
        rw [if_neg (by rintro ⟨h1, h2, _⟩; exact h2 h1)]
        simp
      | cons pr rest ihp =>
        intro lines p m hS hm hN
        obtain ⟨nm, d⟩ := pr
        rw [genDeps_cons]
        have href : ((refStep all d (lines, p)).1).count (hdr m) =
            lines.count (hdr m) +
            (if m ∈ (refStep all d (lines, p)).2 ∧ m ∉ p ∧ hasProps all m
             then 1 else 0) := by
          rcases refStep_spec all d (lines, p) with h | ⟨dd, _, hL, h⟩
          · rw [h]
            rw [if_neg (by rintro ⟨h1, h2, _⟩; exact h2 h1)]
            simp
          · rw [h]
            unfold callStep
            have hy : d.ref ∈ keyset all := mem_keyset_of_lookup' hL
            have hgi := ih.1 all d.ref dd p m hL hS hm (by
              rw [Finset.insert_eq_self.mpr hy]
              omega)
            rw [List.count_append, hgi]
            simp only [union_eq_right_of_call]
        have hrefsub : p ⊆ (refStep all d (lines, p)).2 := refStep_subset (lines, p)
        have harr : ((arrStep all d (refStep all d (lines, p))).1).count (hdr m) =
            ((refStep all d (lines, p)).1).count (hdr m) +
            (if m ∈ (arrStep all d (refStep all d (lines, p))).2 ∧
                m ∉ (refStep all d (lines, p)).2 ∧ hasProps all m
             then 1 else 0) := by
          rcases arrStep_spec all d (refStep all d (lines, p)) with h | ⟨dd, _, hL, h⟩
          · rw [h]
            rw [if_neg (by rintro ⟨h1, h2, _⟩; exact h2 h1)]
            simp
          · rw [h]
            unfold callStep
            have hy : itemRefOf d ∈ keyset all := mem_keyset_of_lookup' hL
            have hgi := ih.1 all (itemRefOf d) dd (refStep all d (lines, p)).2 m hL hS hm (by
              rw [Finset.insert_eq_self.mpr hy]
              have := card_sdiff_le_of_subset (K := keyset all) hrefsub
              omega)
            rw [List.count_append, hgi]
            simp only [union_eq_right_of_call]
        have harrsub : (refStep all d (lines, p)).2 ⊆
            (arrStep all d (refStep all d (lines, p))).2 :=
          arrStep_subset (refStep all d (lines, p))
        have hdep : ((depStep all d (lines, p)).1).count (hdr m) =
            lines.count (hdr m) +
            (if m ∈ (depStep all d (lines, p)).2 ∧ m ∉ p ∧ hasProps all m
             then 1 else 0) := by
          unfold depStep
          rw [harr, href, Nat.add_assoc, ind_chain hrefsub harrsub]
        have hdepsub : p ⊆ (depStep all d (lines, p)).2 := depStep_subset (lines, p)
        have hrest := ihp (depStep all d (lines, p)).1 (depStep all d (lines, p)).2 m hS hm (by
          have := card_sdiff_le_of_subset (K := keyset all) hdepsub
          omega)
        rw [hrest, hdep, Nat.add_assoc, ind_chain hdepsub genDeps_subset]

/-- The count characterization for a single `generate_interface` call. -/
theorem generate_interface_count {all : Defs} {n : String} {d : SchemaNode}
    {p : Finset String} {m : String} (hn : all.lookup n = some d) (hS : SNI all)
    (hm : m ∈ keyset all) :
    ((generate_interface all n d p).1).count (hdr m) =
      if m ∈ (generate_interface all n d p).2 ∧ m ∉ p ∧ hasProps all m
      then 1 else 0 :=
  (count_bound (2 * ((insert n (keyset all)) \ p).card)).1 all n d p m hn hS hm (le_refl _)

theorem generateAll_count {all : Defs} {roots : List String} :
    ∀ {lines : List String} {p : Finset String} {m : String}, SNI all → m ∈ keyset all →
    ((generateAll all roots lines p).1).count (hdr m) =
      lines.count (hdr m) +
      (if m ∈ (generateAll all roots lines p).2 ∧ m ∉ p ∧ hasProps all m
       then 1 else 0) := by
  induction roots with
  | nil =>
    intro lines p m hS hm
    rw [generateAll]
    rw [if_neg (by rintro ⟨h1, h2, _⟩; exact h2 h1)]
    simp
  | cons r rest ih =>
    intro lines p m hS hm
    rw [generateAll]
    cases hL : all.lookup r with
    | none => exact ih hS hm
    | some d =>
      simp only
      rw [ih hS hm, List.count_append, generate_interface_count hL hS hm]
      rw [Nat.add_assoc,
        ind_chain (generate_interface_subset) (generateAll_subset)]

/-- Header-count characterization for a whole run: a name's header appears
exactly once when the name was visited and has properties, and never
otherwise. -/
theorem run_count (all : Defs) (roots : List String) {m : String}
    (hS : SNI all) (hm : m ∈ keyset all) :
    ((run all roots).1).count (hdr m) =
      if m ∈ (run all roots).2 ∧ hasProps all m then 1 else 0 := by
  unfold run
  rw [generateAll_count hS hm]
  simp only [List.count_nil, Nat.zero_add, Finset.not_mem_empty, not_false_iff,
    and_true, true_and]

theorem hdr_mem_run_iff {all : Defs} {roots : List String} {m : String}
    (hS : SNI all) (hm : m ∈ keyset all) :
    hdr m ∈ (run all roots).1 ↔ (m ∈ (run all roots).2 ∧ hasProps all m) := by
  constructor
  · intro h
    by_contra hc
    have := run_count all roots hS hm
    rw [if_neg hc] at this
    exact absurd (List.count_eq_zero.mp this) (by simpa using h)
  · intro h
    have := run_count all roots hS hm
    rw [if_pos h] at this
    have : 0 < ((run all roots).1).count (hdr m) := by omega
    exact List.count_pos_iff.mp this

/-- A requested root that is present in the table ends up visited. -/
theorem generateAll_root_mem {all : Defs} {roots : List String} {r : String} :
    ∀ {lines : List String} {p : Finset String}, r ∈ roots →
    (all.lookup r).isSome → r ∈ (generateAll all roots lines p).2 := by
  induction roots with
  | nil =>
    intro lines p hr
    simp at hr
  | cons a rest ih =>
    intro lines p hr hsome
    rcases List.mem_cons.mp hr with h | h
    · subst h
      rw [generateAll]
      cases hL : all.lookup r with
      | none => rw [hL] at hsome; simp at hsome
      | some d =>
        simp only
        exact generateAll_subset gi_mem_self
    · rw [generateAll]
      cases hL : all.lookup a with
      | none => exact ih h hsome
      | some d => exact ih h hsome

/-! ## Dependency closure: a visited name's guarded dependencies are visited. -/

/-- `y` is a dependency of `props` into which the dependency loop recurses:
some property either directly references `y`, or is an array whose item
references `y`; in both cases the reference is truthy and `y` is in the
table. -/
def guardedDep (all : Defs) (props : List (String × Descriptor)) (y : String) : Prop :=
  ∃ pr ∈ props,
    (pr.2.ref = y ∧ y ≠ "" ∧ (all.lookup y).isSome)
    ∨ (pr.2.type = "array" ∧ itemRefOf pr.2 = y ∧ y ≠ "" ∧ (all.lookup y).isSome)

theorem refStep_mem {all : Defs} {d : Descriptor} {st : List String × Finset String}
    (h1 : d.ref ≠ "") (h2 : (all.lookup d.ref).isSome) :
    d.ref ∈ (refStep all d st).2 := by
  unfold refStep
  rw [if_pos h1, dif_pos h2]
  exact Finset.mem_union_right _ gi_mem_self

theorem arrStep_mem {all : Defs} {d : Descriptor} {st : List String × Finset String}
    (h1 : d.type = "array" ∧ itemRefOf d ≠ "") (h2 : (all.lookup (itemRefOf d)).isSome) :
    itemRefOf d ∈ (arrStep all d st).2 := by
  unfold arrStep
  rw [if_pos h1, dif_pos h2]
  exact Finset.mem_union_right _ gi_mem_self

/-- The dependency loop visits every guarded dependency of its own property
list. -/
theorem genDeps_guarded {all : Defs} {props : List (String × Descriptor)} :
    ∀ {lines : List String} {p : Finset String} {y : String},
      guardedDep all props y → y ∈ (genDeps all props lines p).2 := by
  induction props with
  | nil =>
    intro lines p y hg
    rcases hg with ⟨pr, hpr, _⟩
    simp at hpr
  | cons pr0 rest ih =>
    intro lines p y hg
    obtain ⟨nm, d⟩ := pr0
    rw [genDeps_cons]
    rcases hg with ⟨pr, hpr, hcase⟩
    rcases List.mem_cons.mp hpr with h | h
    · subst h
      rcases hcase with ⟨href, hne, hsome⟩ | ⟨harr, href, hne, hsome⟩
      · have : y ∈ (refStep all d (lines, p)).2 := by
          rw [← href]
          exact refStep_mem (href ▸ hne) (href ▸ hsome)
        exact genDeps_subset (arrStep_subset (refStep all d (lines, p)) this)
      · have : y ∈ (arrStep all d (refStep all d (lines, p))).2 := by
          rw [← href]
          exact arrStep_mem ⟨harr, href ▸ hne⟩ (href ▸ hsome)
        exact genDeps_subset this
    · exact ih ⟨pr, h, hcase⟩

theorem closure_bound (N : Nat) :
    (∀ (all : Defs) (n : String) (d : SchemaNode) (p : Finset String),
        all.lookup n = some d →
        2 * ((insert n (keyset all)) \ p).card ≤ N →
        ∀ m, m ∈ (generate_interface all n d p).2 → m ∉ p →
        ∀ y, guardedDep all (propsOf all m) y → y ∈ (generate_interface all n d p).2)
    ∧ (∀ (all : Defs) (props : List (String × Descriptor)) (lines : List String)
        (p : Finset String),
        2 * ((keyset all) \ p).card + 1 ≤ N →
        ∀ m, m ∈ (genDeps all props lines p).2 → m ∉ p →
        ∀ y, guardedDep all (propsOf all m) y → y ∈ (genDeps all props lines p).2) := by
  induction N with
  | zero =>
    constructor
    · intro all n d p hn hN m hm hm2 y hy
      have hmem : n ∈ p := by
        by_contra hc
        have h1 : n ∈ insert n (keyset all) \ p :=
          Finset.mem_sdiff.mpr ⟨Finset.mem_insert_self _ _, hc⟩
        have : 0 < ((insert n (keyset all)) \ p).card := Finset.card_pos.mpr ⟨n, h1⟩
        omega
      rw [gi_visited hmem] at hm ⊢
      exact absurd hm hm2
    · intro all props lines p hN
      omega
  | succ N ih =>
    constructor
    · intro all n d p hn hN m hm hm2 y hy
      by_cases hmem : n ∈ p
      · rw [gi_visited hmem] at hm
        exact absurd hm hm2
      · by_cases he : d.properties = []
        · rw [gi_empty hmem he] at hm ⊢
          rcases Finset.mem_insert.mp hm with h | h
          · subst h
            rw [propsOf_eq_of_lookup hn, he] at hy
            rcases hy with ⟨pr, hpr, _⟩
            simp at hpr
          · exact absurd h hm2
        · rw [gi_main hmem he] at hm ⊢
          simp only at hm ⊢
          by_cases hmn : m = n
          · subst hmn
            rw [propsOf_eq_of_lookup hn] at hy
            exact genDeps_guarded hy
          · have hle : 2 * ((keyset all) \ insert n p).card + 1 ≤ N := by
              have := measure_insert_lt (K := keyset all) (p := p) hmem
              omega
            have hm3 : m ∉ insert n p := by
              rw [Finset.mem_insert]
              push_neg
              exact ⟨hmn, hm2⟩
            exact ih.2 all d.properties [] (insert n p) hle m hm hm3 y hy
    · intro all props
      induction props with
      | nil =>
        intro lines p hN m hm hm2 y hy
        rw [genDeps_nil] at hm
        exact absurd hm hm2
      | cons pr0 rest ihp =>
        intro lines p hN m hm hm2 y hy
        obtain ⟨nm, d⟩ := pr0
        rw [genDeps_cons] at hm ⊢
        have hrefsub : p ⊆ (refStep all d (lines, p)).2 := refStep_subset (lines, p)
        by_cases hmX : m ∈ (depStep all d (lines, p)).2
        · have hyX : y ∈ (depStep all d (lines, p)).2 := by
            unfold depStep at hmX ⊢
            by_cases hm1 : m ∈ (refStep all d (lines, p)).2
            · have hy1 : y ∈ (refStep all d (lines, p)).2 := by
                rcases refStep_spec all d (lines, p) with h | ⟨dd, _, hL, h⟩
                · rw [h] at hm1
                  exact absurd hm1 hm2
                · rw [h] at hm1 ⊢
                  unfold callStep at hm1 ⊢
                  simp only at hm1 ⊢
                  rcases Finset.mem_union.mp hm1 with h1 | h1
                  · exact absurd h1 hm2
                  · have hy2 := ih.1 all d.ref dd p hL (by
                      rw [Finset.insert_eq_self.mpr (mem_keyset_of_lookup' hL)]
                      omega) m h1 hm2 y hy
                    exact Finset.mem_union_right _ hy2
              exact arrStep_subset (refStep all d (lines, p)) hy1
            · rcases arrStep_spec all d (refStep all d (lines, p)) with h | ⟨dd, _, hL, h⟩
              · rw [h] at hmX
                exact absurd hmX hm1
              · rw [h] at hmX ⊢
                unfold callStep at hmX ⊢
                simp only at hmX ⊢
                rcases Finset.mem_union.mp hmX with h1 | h1
                · exact absurd h1 hm1
                · have hy2 := ih.1 all (itemRefOf d) dd (refStep all d (lines, p)).2 hL (by
                    rw [Finset.insert_eq_self.mpr (mem_keyset_of_lookup' hL)]
                    have := card_sdiff_le_of_subset (K := keyset all) hrefsub
                    omega) m h1 hm1 y hy
                  exact Finset.mem_union_right _ hy2
          exact genDeps_subset hyX
        · have hbound : 2 * ((keyset all) \ (depStep all d (lines, p)).2).card + 1 ≤ N + 1 := by
            have := card_sdiff_le_of_subset (K := keyset all)
              (show p ⊆ (depStep all d (lines, p)).2 from
                depStep_subset (lines, p))
            omega
          exact ihp (depStep all d (lines, p)).1 (depStep all d (lines, p)).2 hbound
            m hm hmX y hy

theorem generateAll_closure {all : Defs} {roots : List String} :
    ∀ {lines : List String} {p : Finset String},
      ∀ m, m ∈ (generateAll all roots lines p).2 → m ∉ p →
      ∀ y, guardedDep all (propsOf all m) y → y ∈ (generateAll all roots lines p).2 := by
  induction roots with
  | nil =>
    intro lines p m hm hm2 y hy
    rw [generateAll] at hm
    exact absurd hm hm2
  | cons r rest ih =>
    intro lines p m hm hm2 y hy
    rw [generateAll] at hm ⊢
    revert hm
    cases hL : all.lookup r with
    | none =>
      intro hm
      exact ih m hm hm2 y hy
    | some d =>
      intro hm
      simp only at hm ⊢
      by_cases hmg : m ∈ (generate_interface all r d p).2
      · have := (closure_bound (2 * ((insert r (keyset all)) \ p).card)).1
          all r d p hL (le_refl _) m hmg hm2 y hy
        exact generateAll_subset this
      · exact ih m hm hmg y hy

/-- Every visited name's guarded dependencies are visited by the end of the
run. -/
theorem run_closure {all : Defs} {roots : List String} {m : String}
    (hm : m ∈ (run all roots).2) {y : String}
    (hy : guardedDep all (propsOf all m) y) : y ∈ (run all roots).2 := by
  unfold run at hm ⊢
  exact generateAll_closure m hm (Finset.not_mem_empty m) y hy

/-! ## Claim theorems. -/

/-- C1: for a Definition Table containing two definitions `a` and `b` that
each reference the other, a generation run terminates (witnessed by `run`
being a total function of this development) and, whenever either name is
requested as a root, the output contains exactly one declaration block for
`a` and exactly one for `b` — no duplicate blocks; the name is added to the
visited set before its dependencies are recursed into. -/
theorem claim1_cycle_termination (all : Defs) (roots : List String)
    (a b : String) (A B : SchemaNode) (hS : SNI all)
    (ha : all.lookup a = some A) (hb : all.lookup b = some B)
    (hane : a ≠ "") (hbne : b ≠ "")
    (fa : String) (dA : Descriptor) (hfa : (fa, dA) ∈ A.properties) (hdA : dA.ref = b)
    (fb : String) (dB : Descriptor) (hfb : (fb, dB) ∈ B.properties) (hdB : dB.ref = a)
    (hroot : a ∈ roots ∨ b ∈ roots) :
    ((run all roots).1).count (hdr a) = 1 ∧ ((run all roots).1).count (hdr b) = 1 := by
  have haK : a ∈ keyset all := mem_keyset_of_lookup' ha
  have hbK : b ∈ keyset all := mem_keyset_of_lookup' hb
  have hPa : hasProps all a :=
    hasProps_of_lookup ha (by intro h; rw [h] at hfa; simp at hfa)
  have hPb : hasProps all b :=
    hasProps_of_lookup hb (by intro h; rw [h] at hfb; simp at hfb)
  have hdepab : guardedDep all (propsOf all a) b := by
    rw [propsOf_eq_of_lookup ha]
    exact ⟨(fa, dA), hfa, Or.inl ⟨hdA, hbne, by rw [hb]; rfl⟩⟩
  have hdepba : guardedDep all (propsOf all b) a := by
    rw [propsOf_eq_of_lookup hb]
    exact ⟨(fb, dB), hfb, Or.inl ⟨hdB, hane, by rw [ha]; rfl⟩⟩
  have hmem : a ∈ (run all roots).2 ∧ b ∈ (run all roots).2 := by
    rcases hroot with hr | hr
    · have ha2 : a ∈ (run all roots).2 :=
        generateAll_root_mem hr (by rw [ha]; rfl)
      exact ⟨ha2, run_closure ha2 hdepab⟩
    · have hb2 : b ∈ (run all roots).2 :=
        generateAll_root_mem hr (by rw [hb]; rfl)
      exact ⟨run_closure hb2 hdepba, hb2⟩
  constructor
  · rw [run_count all roots hS haK, if_pos ⟨hmem.1, hPa⟩]
  · rw [run_count all roots hS hbK, if_pos ⟨hmem.2, hPb⟩]

/-- A field descriptor that only carries a reference to `r`. -/
def dRefTo (r : String) : Descriptor := ⟨"", "", r, none, [], ""⟩

/-- A field descriptor that only carries a primitive type. -/
def dPrim (t : String) : Descriptor := ⟨t, "", "", none, [], ""⟩

def nodeA : SchemaNode := ⟨[("b", dRefTo "B")], [], ""⟩

def nodeB : SchemaNode := ⟨[("a", dRefTo "A")], [], ""⟩

/-- A two-element table with a reference cycle between `A` and `B`. -/
def defsAB : Defs := [("A", nodeA), ("B", nodeB)]

theorem claim1_cycle_termination_witness :
    ((run defsAB ["A"]).1).count (hdr "A") = 1 ∧
    ((run defsAB ["A"]).1).count (hdr "B") = 1 :=
  claim1_cycle_termination defsAB ["A"] "A" "B" nodeA nodeB (by decide)
    rfl rfl (by decide) (by decide)
    "b" (dRefTo "B") (List.Mem.head _) rfl
    "a" (dRefTo "A") (List.Mem.head _) rfl
    (Or.inl (List.Mem.head _))

/-- C3: in any one run the output contains at most one declaration block per
definition name, and exactly one for each visited name with a non-empty
property dictionary — so requesting the same root twice, or two roots sharing
a dependency, still yields one declaration per distinct name (the visited set
is created once per run and shared across all roots). -/
theorem claim3_no_duplication (all : Defs) (roots : List String) (m : String)
    (hS : SNI all) (hm : m ∈ keyset all) :
    ((run all roots).1).count (hdr m) ≤ 1 ∧
    ((run all roots).1).count (hdr m) =
      (if m ∈ (run all roots).2 ∧ hasProps all m then 1 else 0) := by
  have h := run_count all roots hS hm
  constructor
  · rw [h]
    split
    · omega
    · omega
  · exact h

theorem claim3_no_duplication_witness :
    ((run defsAB ["A", "A"]).1).count (hdr "B") ≤ 1 ∧
    ((run defsAB ["A", "A"]).1).count (hdr "B") =
      (if "B" ∈ (run defsAB ["A", "A"]).2 ∧ hasProps defsAB "B" then 1 else 0) :=
  claim3_no_duplication defsAB ["A", "A"] "B" (by decide) (by decide)

/-- C9: a reference to a name absent from the Definition Table is never
recursed into (it is never added to the visited set of any run — the
generator raises no error, being a total function) while the usage site still
renders through the Type Mapper as the bare final segment of the referenced
name. -/
theorem claim9_missing_reference (all : Defs) (roots : List String) (R : String)
    (hR : R ∉ keyset all) (hRne : R ≠ "") (t f : String) (its : Option Descriptor)
    (en : List String) :
    R ∉ (run all roots).2 ∧
    swagger_type_to_typescript t f R its en = lastSegment R := by
  constructor
  · intro hc
    exact hR (run_keys hc)
  · unfold swagger_type_to_typescript
    rw [if_pos hRne]

theorem claim9_missing_reference_witness :
    "External.Type" ∉ (run defsAB ["A"]).2 ∧
    swagger_type_to_typescript "" "" "External.Type" none [] =
      lastSegment "External.Type" :=
  claim9_missing_reference defsAB ["A"] "External.Type" (by decide) (by decide)
    "" "" none []

/-- C10: a requested root name absent from the Definition Table is silently
skipped — the loop step for it changes neither the output lines nor the
visited state, it is never added to the visited set of the run, no error is
raised (the loop is a total function), and the remaining roots are processed
exactly as without it. -/
theorem claim10_absent_root (all : Defs) (r : String) (rest : List String)
    (lines : List String) (p : Finset String) (roots : List String)
    (hr : r ∉ keyset all) :
    generateAll all (r :: rest) lines p = generateAll all rest lines p ∧
    r ∉ (run all roots).2 := by
  have hL : all.lookup r = none := by
    cases hc : all.lookup r with
    | none => rfl
    | some d => exact absurd (mem_keyset_of_lookup' hc) hr
  constructor
  · rw [generateAll, hL]
  · intro hc
    exact hr (run_keys hc)

theorem claim10_absent_root_witness :
    generateAll defsAB ["Missing", "A"] [] ∅ = generateAll defsAB ["A"] [] ∅ ∧
    "Missing" ∉ (run defsAB ["Missing", "A"]).2 :=
  claim10_absent_root defsAB "Missing" ["A"] [] ∅ ["Missing", "A"] (by decide)

/-- C4: the Type Mapper resolves by fixed priority, first match wins: a
present (truthy) reference renders as the final segment of the referenced
name regardless of enum, array or primitive markers also present; otherwise
present enum values render as the union of quoted literals in input order;
otherwise an array kind is handled by the array branch; otherwise the
primitive table decides. -/
theorem claim4_priority (t f r : String) (its : Option Descriptor) (en : List String) :
    (r ≠ "" → swagger_type_to_typescript t f r its en = lastSegment r)
    ∧ (r = "" → en ≠ [] → swagger_type_to_typescript t f r its en = enumUnion en)
    ∧ (r = "" → en = [] → t = "array" →
        swagger_type_to_typescript t f r its en = array_render its)
    ∧ (r = "" → en = [] → t ≠ "array" →
        swagger_type_to_typescript t f r its en = primitive_type t f) := by
  refine ⟨?_, ?_, ?_, ?_⟩
  · intro h
    unfold swagger_type_to_typescript
    rw [if_pos h]
  · intro h1 h2
    unfold swagger_type_to_typescript
    rw [if_neg (by simp [h1]), if_pos h2]
  · intro h1 h2 h3
    unfold swagger_type_to_typescript
    rw [if_neg (by simp [h1]), if_neg (by simp [h2]), if_pos h3]
  · intro h1 h2 h3
    unfold swagger_type_to_typescript
    rw [if_neg (by simp [h1]), if_neg (by simp [h2]), if_neg h3]

theorem claim4_priority_witness :
    swagger_type_to_typescript "array" "date-time" "NS.Ref"
        (some (dPrim "integer")) ["X"] = lastSegment "NS.Ref"
    ∧ swagger_type_to_typescript "array" "" "" (some (dPrim "integer")) ["X", "Y"]
        = enumUnion ["X", "Y"]
    ∧ swagger_type_to_typescript "array" "date-time" "" (some (dPrim "integer")) []
        = array_render (some (dPrim "integer"))
    ∧ swagger_type_to_typescript "integer" "" "" none [] = primitive_type "integer" "" :=
  ⟨(claim4_priority "array" "date-time" "NS.Ref" (some (dPrim "integer")) ["X"]).1
      (by decide),
   (claim4_priority "array" "" "" (some (dPrim "integer")) ["X", "Y"]).2.1 rfl (by decide),
   (claim4_priority "array" "date-time" "" (some (dPrim "integer")) []).2.2.1 rfl rfl rfl,
   (claim4_priority "integer" "" "" none []).2.2.2 rfl rfl (by decide)⟩

/-- Modelled from the spec for comparison in C5: the §4.1 resolution rule
applied *recursively* to an item descriptor ("recursively map the item
descriptor", including nested arrays). Built from the spec's words, not from
the code. -/
def specItemMap : Descriptor → String
  | ⟨t, f, r, its, en, _⟩ =>
    if r ≠ "" then lastSegment r
    else if en ≠ [] then enumUnion en
    else if t = "array" then
      match its with
      | some it => specItemMap it ++ "[]"
      | none => "unknown[]"
    else primitive_type t f

/-- A nested-array item descriptor: an array of integers. -/
def itemNested : Descriptor := ⟨"array", "", "", some (dPrim "integer"), [], ""⟩

/-- C5 counterexample: for an array whose item descriptor is itself an array
of integers, the code renders `unknown[][]` while "recursively map the item
descriptor, suffixed with `[]`" (the claim, via `specItemMap`) demands
`number[][]` — the source's recursive call drops the item's own `items`, so
the recursion does not apply to nested arrays. -/
theorem claim5_counterexample :
    swagger_type_to_typescript "array" "" "" (some itemNested) [] = "unknown[][]"
    ∧ specItemMap itemNested ++ "[]" = "number[][]"
    ∧ swagger_type_to_typescript "array" "" "" (some itemNested) []
        ≠ specItemMap itemNested ++ "[]" := by
  refine ⟨by decide, by decide, by decide⟩

/-- C5 amended: for an array-kind field the mapper maps only the item's
reference, or else the item's `type`/`format` pair: an item reference renders
as `ItemType[]` (final segment), a primitive item is mapped through the
primitive table and suffixed `[]`, but a nested-array item renders as
`unknown[][]` regardless of its inner item descriptor (the recursion does not
descend, and the item's enum is ignored); an array with no item descriptor
renders `unknown[]`. -/
theorem claim5_amended (f : String) (it : Descriptor) :
    (it.ref ≠ "" → swagger_type_to_typescript "array" f "" (some it) [] =
        lastSegment it.ref ++ "[]")
    ∧ (it.ref = "" → it.type ≠ "array" →
        swagger_type_to_typescript "array" f "" (some it) [] =
          primitive_type it.type it.format ++ "[]")
    ∧ (it.ref = "" → it.type = "array" →
        swagger_type_to_typescript "array" f "" (some it) [] = "unknown[][]")
    ∧ swagger_type_to_typescript "array" f "" none [] = "unknown[]" := by
  refine ⟨?_, ?_, ?_, ?_⟩
  · intro h
    unfold swagger_type_to_typescript array_render
    rw [if_neg (by simp), if_neg (by simp), if_pos rfl]
    simp only [if_pos h]
  · intro h1 h2
    unfold swagger_type_to_typescript array_render
    rw [if_neg (by simp), if_neg (by simp), if_pos rfl]
    simp only [if_neg (by simp [h1] : ¬ it.ref ≠ ""), if_neg h2]
  · intro h1 h2
    unfold swagger_type_to_typescript array_render
    rw [if_neg (by simp), if_neg (by simp), if_pos rfl]
    simp only [if_neg (by simp [h1] : ¬ it.ref ≠ ""), if_pos h2]
    decide
  · unfold swagger_type_to_typescript array_render
    rw [if_neg (by simp), if_neg (by simp), if_pos rfl]

theorem claim5_amended_witness :
    swagger_type_to_typescript "array" "" "" (some (dRefTo "NS.Foo")) [] =
      lastSegment "NS.Foo" ++ "[]"
    ∧ swagger_type_to_typescript "array" "" "" (some (dPrim "integer")) [] =
      primitive_type "integer" "" ++ "[]"
    ∧ swagger_type_to_typescript "array" "" "" (some itemNested) [] = "unknown[][]"
    ∧ swagger_type_to_typescript "array" "" "" none [] = "unknown[]" :=
  ⟨(claim5_amended "" (dRefTo "NS.Foo")).1 (by decide),
   (claim5_amended "" (dPrim "integer")).2.1 rfl (by decide),
   (claim5_amended "" itemNested).2.2.1 rfl rfl,
   (claim5_amended "" (dPrim "boolean")).2.2.2⟩

/-- C7: an emitted field line carries the optional marker `?` after the field
name exactly when the field name is not in the definition's required list: a
required field never carries it, every other field does. -/
theorem claim7_optional_marker (req : List String) (nm : String) (d : Descriptor) :
    (nm ∈ req → fieldLines req nm d =
      (if d.description ≠ "" then ["  /** " ++ cleanDesc d.description ++ " */"] else [])
      ++ ["  " ++ nm ++ ": " ++ tsTypeOf d ++ ";"])
    ∧ (nm ∉ req → fieldLines req nm d =
      (if d.description ≠ "" then ["  /** " ++ cleanDesc d.description ++ " */"] else [])
      ++ ["  " ++ nm ++ "?" ++ ": " ++ tsTypeOf d ++ ";"]) := by
  constructor
  · intro h
    unfold fieldLines
    rw [if_pos h]
    simp [String.append_empty]
  · intro h
    unfold fieldLines
    rw [if_neg h]

theorem claim7_optional_marker_witness :
    fieldLines ["Id"] "Id" (dPrim "integer") =
      (if (dPrim "integer").description ≠ "" then
        ["  /** " ++ cleanDesc (dPrim "integer").description ++ " */"] else [])
      ++ ["  " ++ "Id" ++ ": " ++ tsTypeOf (dPrim "integer") ++ ";"]
    ∧ fieldLines [] "Name" (dPrim "string") =
      (if (dPrim "string").description ≠ "" then
        ["  /** " ++ cleanDesc (dPrim "string").description ++ " */"] else [])
      ++ ["  " ++ "Name" ++ "?" ++ ": " ++ tsTypeOf (dPrim "string") ++ ";"] :=
  ⟨(claim7_optional_marker ["Id"] "Id" (dPrim "integer")).1 (List.Mem.head _),
   (claim7_optional_marker [] "Name" (dPrim "string")).2 (by decide)⟩

theorem eq_of_sorted_perm_nodup :
    ∀ (l₁ l₂ : List (String × Descriptor)), l₁.Perm l₂ →
      List.Sorted keyLe l₁ → List.Sorted keyLe l₂ →
      (l₁.map Prod.fst).Nodup → l₁ = l₂ := by
  intro l₁
  induction l₁ with
  | nil =>
    intro l₂ hp _ _ _
    exact (hp.nil_eq).symm ▸ rfl
  | cons a t₁ ih =>
    intro l₂ hp hs₁ hs₂ hnd
    cases l₂ with
    | nil => exact absurd hp.symm.nil_eq (by simp)
    | cons b t₂ =>
      have hab : a = b := by
        by_contra hne
        have haIn : a ∈ b :: t₂ := hp.subset (List.Mem.head _)
        have ha2 : a ∈ t₂ := by
          rcases List.mem_cons.mp haIn with h | h
          · exact absurd h hne
          · exact h
        have hbIn : b ∈ a :: t₁ := hp.symm.subset (List.Mem.head _)
        have hb1 : b ∈ t₁ := by
          rcases List.mem_cons.mp hbIn with h | h
          · exact absurd h.symm hne
          · exact h
        have h1 : keyLe a b := (List.sorted_cons.mp hs₁).1 b hb1
        have h2 : keyLe b a := (List.sorted_cons.mp hs₂).1 a ha2
        have heq : a.1 = b.1 := le_antisymm h1 h2
        have : a.1 ∉ t₁.map Prod.fst := by
          rw [List.map_cons] at hnd
          exact (List.nodup_cons.mp hnd).1
        exact this (heq ▸ List.mem_map_of_mem Prod.fst hb1)
      subst hab
      have ht : t₁ = t₂ := by
        apply ih t₂ hp.cons_inv (List.sorted_cons.mp hs₁).2 (List.sorted_cons.mp hs₂).2
        rw [List.map_cons] at hnd
        exact (List.nodup_cons.mp hnd).2
      rw [ht]

/-- C6: permuting the iteration order of a Schema Node's properties mapping
changes neither the emitted field lines of that node's declaration nor their
order, and the fields appear sorted lexicographically by field name. -/
theorem claim6_deterministic_fields (props₁ props₂ : List (String × Descriptor))
    (req : List String) (desc : String)
    (hperm : props₁.Perm props₂) (hnd : (props₁.map Prod.fst).Nodup) :
    fieldSection ⟨props₁, req, desc⟩ = fieldSection ⟨props₂, req, desc⟩ ∧
    List.Pairwise (fun a b : String × Descriptor => a.1 ≤ b.1) (sortProps props₁) := by
  have hsort : sortProps props₁ = sortProps props₂ := by
    apply eq_of_sorted_perm_nodup
    · exact (List.perm_insertionSort keyLe props₁).trans
        (hperm.trans (List.perm_insertionSort keyLe props₂).symm)
    · exact List.sorted_insertionSort keyLe props₁
    · exact List.sorted_insertionSort keyLe props₂
    · exact (((List.perm_insertionSort keyLe props₁).map Prod.fst).nodup_iff).mpr hnd
  constructor
  · unfold fieldSection
    simp only
    rw [hsort]
  · exact List.sorted_insertionSort keyLe props₁

theorem claim6_deterministic_fields_witness :
    fieldSection ⟨[("x", dPrim "integer")], ["x"], ""⟩ =
      fieldSection ⟨[("x", dPrim "integer")], ["x"], ""⟩ ∧
    List.Pairwise (fun a b : String × Descriptor => a.1 ≤ b.1)
      (sortProps [("x", dPrim "integer")]) :=
  claim6_deterministic_fields [("x", dPrim "integer")] [("x", dPrim "integer")]
    ["x"] "" (List.Perm.refl _) (by simp)

/-! ## Reference reachability. -/

theorem isSome_of_mem_keyset {all : Defs} {m : String} (h : m ∈ keyset all) :
    (all.lookup m).isSome := by
  induction all with
  | nil => simp [keyset] at h
  | cons e rest ih =>
    obtain ⟨k, v⟩ := e
    by_cases hk : m = k
    · subst hk
      simp [List.lookup]
    · have h2 : m ∈ keyset rest := by
        simp only [keyset, List.map_cons, List.toFinset_cons, Finset.mem_insert] at h
        rcases h with h | h
        · exact absurd h hk
        · simpa [keyset] using h
      have h3 := ih h2
      have hb : (m == k) = false := beq_eq_false_iff_ne.mpr hk
      simp only [List.lookup, hb]
      exact h3

/-- Definition `x` references definition `y`: some property of `x` carries a
direct reference to `y`, or is of array kind with an item reference to `y`. -/
def dirRef (all : Defs) (x y : String) : Prop :=
  ∃ pr ∈ propsOf all x,
    pr.2.ref = y ∨ (pr.2.type = "array" ∧ itemRefOf pr.2 = y)

/-- `y` is reachable from `x` through a chain of references. -/
inductive Reaches (all : Defs) : String → String → Prop
  | refl (x : String) : Reaches all x x
  | step {x y z : String} : dirRef all x y → Reaches all y z → Reaches all x z

theorem guardedDep_of_dirRef {all : Defs} {D E : String} (h : dirRef all D E)
    (hne : E ≠ "") (hk : E ∈ keyset all) : guardedDep all (propsOf all D) E := by
  rcases h with ⟨pr, hpr, hc⟩
  have hsome := isSome_of_mem_keyset hk
  rcases hc with h | ⟨h1, h2⟩
  · exact ⟨pr, hpr, Or.inl ⟨h, hne, hsome⟩⟩
  · exact ⟨pr, hpr, Or.inr ⟨h1, h2, hne, hsome⟩⟩

theorem dirRef_of_guardedDep {all : Defs} {x y : String}
    (h : guardedDep all (propsOf all x) y) : dirRef all x y := by
  rcases h with ⟨pr, hpr, hc⟩
  rcases hc with ⟨h1, _, _⟩ | ⟨h1, h2, _, _⟩
  · exact ⟨pr, hpr, Or.inl h1⟩
  · exact ⟨pr, hpr, Or.inr ⟨h1, h2⟩⟩

theorem reach_bound (N : Nat) :
    (∀ (all : Defs) (n : String) (d : SchemaNode) (p : Finset String),
        all.lookup n = some d →
        2 * ((insert n (keyset all)) \ p).card ≤ N →
        ∀ m, m ∈ (generate_interface all n d p).2 → m ∉ p → Reaches all n m)
    ∧ (∀ (all : Defs) (props : List (String × Descriptor)) (lines : List String)
        (p : Finset String),
        2 * ((keyset all) \ p).card + 1 ≤ N →
        ∀ m, m ∈ (genDeps all props lines p).2 → m ∉ p →
        ∃ y, guardedDep all props y ∧ Reaches all y m) := by
  induction N with
  | zero =>
    constructor
    · intro all n d p hn hN m hm hm2
      have hmem : n ∈ p := by
        by_contra hc
        have h1 : n ∈ insert n (keyset all) \ p :=
          Finset.mem_sdiff.mpr ⟨Finset.mem_insert_self _ _, hc⟩
        have : 0 < ((insert n (keyset all)) \ p).card := Finset.card_pos.mpr ⟨n, h1⟩
        omega
      rw [gi_visited hmem] at hm
      exact absurd hm hm2
    · intro all props lines p hN
      omega
  | succ N ih =>
    constructor
    · intro all n d p hn hN m hm hm2
      by_cases hmem : n ∈ p
      · rw [gi_visited hmem] at hm
        exact absurd hm hm2
      · by_cases he : d.properties = []
        · rw [gi_empty hmem he] at hm
          rcases Finset.mem_insert.mp hm with h | h
          · subst h
            exact Reaches.refl m
          · exact absurd h hm2
        · rw [gi_main hmem he] at hm
          simp only at hm
          by_cases hmn : m = n
          · subst hmn
            exact Reaches.refl m
          · have hm3 : m ∉ insert n p := by
              rw [Finset.mem_insert]
              push_neg
              exact ⟨hmn, hm2⟩
            have hle : 2 * ((keyset all) \ insert n p).card + 1 ≤ N := by
              have := measure_insert_lt (K := keyset all) (p := p) hmem
              omega
            rcases ih.2 all d.properties [] (insert n p) hle m hm hm3 with ⟨y, hg, hr⟩
            have hd : dirRef all n y :=
              dirRef_of_guardedDep (by rwa [propsOf_eq_of_lookup hn])
            exact Reaches.step hd hr
    · intro all props
      induction props with
      | nil =>
        intro lines p hN m hm hm2
        rw [genDeps_nil] at hm
        exact absurd hm hm2
      | cons pr0 rest ihp =>
        intro lines p hN m hm hm2
        obtain ⟨nm, d⟩ := pr0
        rw [genDeps_cons] at hm
        have hrefsub : p ⊆ (refStep all d (lines, p)).2 := refStep_subset (lines, p)
        by_cases hmX : m ∈ (depStep all d (lines, p)).2
        · unfold depStep at hmX
          by_cases hm1 : m ∈ (refStep all d (lines, p)).2
          · rcases refStep_spec all d (lines, p) with h | ⟨dd, hg, hL, h⟩
            · rw [h] at hm1
              exact absurd hm1 hm2
            · rw [h] at hm1
              unfold callStep at hm1
              simp only at hm1
              rcases Finset.mem_union.mp hm1 with h1 | h1
              · exact absurd h1 hm2
              · have hr := ih.1 all d.ref dd p hL (by
                  rw [Finset.insert_eq_self.mpr (mem_keyset_of_lookup' hL)]
                  omega) m h1 hm2
                refine ⟨d.ref, ⟨(nm, d), List.Mem.head _, ?_⟩, hr⟩
                exact Or.inl ⟨rfl, hg, by rw [hL]; rfl⟩
          · rcases arrStep_spec all d (refStep all d (lines, p)) with h | ⟨dd, hg, hL, h⟩
            · rw [h] at hmX
              exact absurd hmX hm1
            · rw [h] at hmX
              unfold callStep at hmX
              simp only at hmX
              rcases Finset.mem_union.mp hmX with h1 | h1
              · exact absurd h1 hm1
              · have hr := ih.1 all (itemRefOf d) dd (refStep all d (lines, p)).2 hL (by
                  rw [Finset.insert_eq_self.mpr (mem_keyset_of_lookup' hL)]
                  have := card_sdiff_le_of_subset (K := keyset all) hrefsub
                  omega) m h1 hm1
                refine ⟨itemRefOf d, ⟨(nm, d), List.Mem.head _, ?_⟩, hr⟩
                exact Or.inr ⟨hg.1, rfl, hg.2, by rw [hL]; rfl⟩
        · have hbound : 2 * ((keyset all) \ (depStep all d (lines, p)).2).card + 1 ≤ N + 1 := by
            have := card_sdiff_le_of_subset (K := keyset all)
              (show p ⊆ (depStep all d (lines, p)).2 from
                depStep_subset (lines, p))
            omega
          rcases ihp (depStep all d (lines, p)).1 (depStep all d (lines, p)).2 hbound
            m hm hmX with ⟨y, ⟨pr, hpr, hc⟩, hr⟩
          exact ⟨y, ⟨pr, List.Mem.tail _ hpr, hc⟩, hr⟩

/-- Names freshly visited by a call were reachable from the argument name. -/
theorem generate_interface_reaches {all : Defs} {n : String} {d : SchemaNode}
    {p : Finset String} (hn : all.lookup n = some d) {m : String}
    (hm : m ∈ (generate_interface all n d p).2) (hm2 : m ∉ p) : Reaches all n m :=
  (reach_bound (2 * ((insert n (keyset all)) \ p).card)).1 all n d p hn (le_refl _) m hm hm2

theorem genDeps_reaches {all : Defs} {props : List (String × Descriptor)}
    {lines : List String} {p : Finset String} {m : String}
    (hm : m ∈ (genDeps all props lines p).2) (hm2 : m ∉ p) :
    ∃ y, guardedDep all props y ∧ Reaches all y m :=
  (reach_bound (2 * ((keyset all) \ p).card + 1)).2 all props lines p (le_refl _) m hm hm2

/-! ## Header membership and placement. -/

theorem gi_header_of {all : Defs} {n : String} {d : SchemaNode} {p : Finset String}
    {m : String} (hn : all.lookup n = some d) (hS : SNI all) (hm : m ∈ keyset all)
    (h : m ∈ (generate_interface all n d p).2 ∧ m ∉ p ∧ hasProps all m) :
    hdr m ∈ (generate_interface all n d p).1 := by
  have hc := generate_interface_count (p := p) hn hS hm
  rw [if_pos h] at hc
  exact List.count_pos_iff.mp (by omega)

theorem gi_header_inv {all : Defs} {n : String} {d : SchemaNode} {p : Finset String}
    {m : String} (hn : all.lookup n = some d) (hS : SNI all) (hm : m ∈ keyset all)
    (h : hdr m ∈ (generate_interface all n d p).1) :
    m ∈ (generate_interface all n d p).2 ∧ m ∉ p ∧ hasProps all m := by
  have hc := generate_interface_count (p := p) hn hS hm
  by_contra hcon
  rw [if_neg hcon] at hc
  exact absurd (List.count_eq_zero.mp hc) (by simpa using h)

theorem genDeps_count_nil (all : Defs) (props : List (String × Descriptor))
    (p : Finset String) {m : String} (hS : SNI all) (hm : m ∈ keyset all) :
    ((genDeps all props [] p).1).count (hdr m) =
      (if m ∈ (genDeps all props [] p).2 ∧ m ∉ p ∧ hasProps all m then 1 else 0) := by
  have := (count_bound (2 * ((keyset all) \ p).card + 1)).2 all props [] p m hS hm (le_refl _)
  simpa using this

theorem genDeps_header_of {all : Defs} {props : List (String × Descriptor)}
    {p : Finset String} {m : String} (hS : SNI all) (hm : m ∈ keyset all)
    (h : m ∈ (genDeps all props [] p).2 ∧ m ∉ p ∧ hasProps all m) :
    hdr m ∈ (genDeps all props [] p).1 := by
  have hc := genDeps_count_nil all props p hS hm
  rw [if_pos h] at hc
  exact List.count_pos_iff.mp (by omega)

theorem genDeps_header_inv {all : Defs} {props : List (String × Descriptor)}
    {p : Finset String} {m : String} (hS : SNI all) (hm : m ∈ keyset all)
    (h : hdr m ∈ (genDeps all props [] p).1) :
    m ∈ (genDeps all props [] p).2 ∧ m ∉ p ∧ hasProps all m := by
  have hc := genDeps_count_nil all props p hS hm
  by_contra hcon
  rw [if_neg hcon] at hc
  exact absurd (List.count_eq_zero.mp hc) (by simpa using h)

theorem depStep_count (all : Defs) (d : Descriptor) (lines : List String)
    (p : Finset String) {m : String} (hS : SNI all) (hm : m ∈ keyset all) :
    ((depStep all d (lines, p)).1).count (hdr m) =
      lines.count (hdr m) +
      (if m ∈ (depStep all d (lines, p)).2 ∧ m ∉ p ∧ hasProps all m then 1 else 0) := by
  have href : ((refStep all d (lines, p)).1).count (hdr m) =
      lines.count (hdr m) +
      (if m ∈ (refStep all d (lines, p)).2 ∧ m ∉ p ∧ hasProps all m
       then 1 else 0) := by
    rcases refStep_spec all d (lines, p) with h | ⟨dd, _, hL, h⟩
    · rw [h]
      rw [if_neg (by rintro ⟨h1, h2, _⟩; exact h2 h1)]
      simp
    · rw [h]
      unfold callStep
      rw [List.count_append, generate_interface_count hL hS hm]
      simp only [union_eq_right_of_call]
  have hrefsub : p ⊆ (refStep all d (lines, p)).2 := refStep_subset (lines, p)
  have harr : ((arrStep all d (refStep all d (lines, p))).1).count (hdr m) =
      ((refStep all d (lines, p)).1).count (hdr m) +
      (if m ∈ (arrStep all d (refStep all d (lines, p))).2 ∧
          m ∉ (refStep all d (lines, p)).2 ∧ hasProps all m
       then 1 else 0) := by
    rcases arrStep_spec all d (refStep all d (lines, p)) with h | ⟨dd, _, hL, h⟩
    · rw [h]
      rw [if_neg (by rintro ⟨h1, h2, _⟩; exact h2 h1)]
      simp
    · rw [h]
      unfold callStep
      rw [List.count_append, generate_interface_count hL hS hm]
      simp only [union_eq_right_of_call]
  unfold depStep
  rw [harr, href, Nat.add_assoc,
    ind_chain hrefsub (arrStep_subset (refStep all d (lines, p)))]

theorem sublist_pair_of_mem_parts {a b : String} {l₁ l₂ : List String}
    (h1 : a ∈ l₁) (h2 : b ∈ l₂) : ([a, b] : List String).Sublist (l₁ ++ l₂) :=
  (List.singleton_sublist.mpr h1).append (List.singleton_sublist.mpr h2)

theorem sublist_extend_right {l L R : List String} (h : l.Sublist L) :
    l.Sublist (L ++ R) :=
  h.trans (List.sublist_append_left L R)

theorem sublist_extend_left {l L R : List String} (h : l.Sublist R) :
    l.Sublist (L ++ R) :=
  h.trans (List.sublist_append_right L R)

/-- A header line inside a `generate_interface` output is either a header
emitted by the dependency loop or the name's own header. -/
theorem gi_hdr_cases {all : Defs} {n : String} {d : SchemaNode} {p : Finset String}
    {D : String} (hn : all.lookup n = some d) (hS : SNI all) (hD : D ∈ keyset all)
    (hmem : hdr D ∈ (generate_interface all n d p).1) :
    n ∉ p ∧ d.properties ≠ [] ∧
      (hdr D ∈ (genDeps all d.properties [] (insert n p)).1 ∨ D = n) := by
  by_cases hmemn : n ∈ p
  · rw [gi_visited hmemn] at hmem
    simp at hmem
  · by_cases he : d.properties = []
    · rw [gi_empty hmemn he] at hmem
      simp at hmem
    · refine ⟨hmemn, he, ?_⟩
      rw [gi_main hmemn he] at hmem
      simp only at hmem
      rcases List.mem_append.mp hmem with h | h
      · rcases List.mem_append.mp h with h | h
        · rcases List.mem_append.mp h with h | h
          · rcases List.mem_append.mp h with h | h
            · exact Or.inl h
            · exact absurd h (hdr_notMem_declDoc D d.description)
          · right
            rcases List.mem_singleton.mp h with h
            exact hS D hD n (mem_keyset_of_lookup' hn) h
        · exact absurd h (hdr_notMem_fieldSection D d)
      · exact absurd h (by
          intro hc
          rcases List.mem_cons.mp hc with h | h
          · exact hdr_ne_close D h
          rcases List.mem_singleton.mp h with h
          exact hdr_ne_empty D h)

/-- Dependency ordering within a single dependency-loop step, given the
ordering property for the recursive calls it makes. -/
theorem depStep_order_of {all : Defs} {d : Descriptor} {p : Finset String} {D E : String}
    (hS : SNI all) (hE : E ∈ keyset all)
    (Hgi : ∀ (y : String) (dd : SchemaNode) (q : Finset String),
        all.lookup y = some dd → p ⊆ q →
        hdr D ∈ (generate_interface all y dd q).1 →
        ([hdr E, hdr D] : List String).Sublist (generate_interface all y dd q).1
          ∨ E ∈ q ∨ ¬ hasProps all E ∨ Reaches all E D)
    (hmem : hdr D ∈ (depStep all d ([], p)).1) :
    ([hdr E, hdr D] : List String).Sublist (depStep all d ([], p)).1
      ∨ E ∈ p ∨ ¬ hasProps all E ∨ Reaches all E D := by
  unfold depStep at hmem ⊢
  rcases refStep_spec all d ([], p) with h1 | ⟨dd, hg1, hL1, h1⟩
  · rw [h1] at hmem ⊢
    rcases arrStep_spec all d ([], p) with h2 | ⟨dd2, hg2, hL2, h2⟩
    · rw [h2] at hmem
      simp at hmem
    · rw [h2] at hmem ⊢
      unfold callStep at hmem ⊢
      simp only [List.nil_append] at hmem ⊢
      exact Hgi _ _ _ hL2 (Finset.Subset.refl p) hmem
  · rw [h1] at hmem ⊢
    rcases arrStep_spec all d (callStep all d.ref dd ([], p)) with h2 | ⟨dd2, hg2, hL2, h2⟩
    · rw [h2] at hmem ⊢
      unfold callStep at hmem ⊢
      simp only [List.nil_append] at hmem ⊢
      exact Hgi _ _ _ hL1 (Finset.Subset.refl p) hmem
    · rw [h2] at hmem ⊢
      unfold callStep at hmem ⊢
      simp only [List.nil_append] at hmem ⊢
      rcases List.mem_append.mp hmem with hD1 | hD2
      · rcases Hgi _ _ _ hL1 (Finset.Subset.refl p) hD1 with h | h | h | h
        · exact Or.inl (sublist_extend_right h)
        · exact Or.inr (Or.inl h)
        · exact Or.inr (Or.inr (Or.inl h))
        · exact Or.inr (Or.inr (Or.inr h))
      · rcases Hgi _ _ _ hL2 Finset.subset_union_left hD2 with h | h | h | h
        · exact Or.inl (sublist_extend_left h)
        · rcases Finset.mem_union.mp h with hEp | hEg
          · exact Or.inr (Or.inl hEp)
          · by_cases hEp : E ∈ p
            · exact Or.inr (Or.inl hEp)
            · by_cases hP : hasProps all E
              · have hEw : hdr E ∈ (generate_interface all d.ref dd p).1 :=
                  gi_header_of hL1 hS hE ⟨hEg, hEp, hP⟩
                exact Or.inl (sublist_pair_of_mem_parts hEw hD2)
              · exact Or.inr (Or.inr (Or.inl hP))
        · exact Or.inr (Or.inr (Or.inl h))
        · exact Or.inr (Or.inr (Or.inr h))

theorem order_bound (N : Nat) :
    (∀ (all : Defs) (n : String) (d : SchemaNode) (p : Finset String) (D E : String),
        all.lookup n = some d → SNI all → D ∈ keyset all → E ∈ keyset all →
        E ≠ "" → dirRef all D E →
        2 * ((insert n (keyset all)) \ p).card ≤ N →
        hdr D ∈ (generate_interface all n d p).1 →
        ([hdr E, hdr D] : List String).Sublist (generate_interface all n d p).1
          ∨ E ∈ p ∨ ¬ hasProps all E ∨ Reaches all E D)
    ∧ (∀ (all : Defs) (props : List (String × Descriptor)) (lines : List String)
        (p : Finset String) (D E : String), SNI all →
        D ∈ keyset all → E ∈ keyset all → E ≠ "" → dirRef all D E →
        2 * ((keyset all) \ p).card + 1 ≤ N →
        hdr D ∈ (genDeps all props lines p).1 →
        hdr D ∈ lines
          ∨ ([hdr E, hdr D] : List String).Sublist (genDeps all props lines p).1
          ∨ E ∈ p ∨ ¬ hasProps all E ∨ Reaches all E D) := by
  induction N with
  | zero =>
    constructor
    · intro all n d p D E hn hS hD hE hEne href hN hmem
      have hmemn : n ∈ p := by
        by_contra hc
        have h1 : n ∈ insert n (keyset all) \ p :=
          Finset.mem_sdiff.mpr ⟨Finset.mem_insert_self _ _, hc⟩
        have : 0 < ((insert n (keyset all)) \ p).card := Finset.card_pos.mpr ⟨n, h1⟩
        omega
      rw [gi_visited hmemn] at hmem
      simp at hmem
    · intro all props lines p D E hS hD hE hEne href hN
      omega
  | succ N ih =>
    constructor
    · intro all n d p D E hn hS hD hE hEne href hN hmem
      obtain ⟨hmemn, he, hcase⟩ := gi_hdr_cases hn hS hD hmem
      have hle : 2 * ((keyset all) \ insert n p).card + 1 ≤ N := by
        have := measure_insert_lt (K := keyset all) (p := p) hmemn
        omega
      rcases hcase with hDg | hDn
      · rcases ih.2 all d.properties [] (insert n p) D E hS hD hE hEne href hle hDg
          with h | h | h | h | h
        · simp at h
        · left
          rw [gi_main hmemn he]
          exact sublist_extend_right (sublist_extend_right
            (sublist_extend_right (sublist_extend_right h)))
        · rcases Finset.mem_insert.mp h with hEn | hEp
          · right; right; right
            have hinv := genDeps_header_inv hS hD hDg
            rcases genDeps_reaches hinv.1 hinv.2.1 with ⟨y, hg, hr⟩
            have hdir : dirRef all n y :=
              dirRef_of_guardedDep (by rwa [propsOf_eq_of_lookup hn])
            exact hEn ▸ Reaches.step hdir hr
          · exact Or.inr (Or.inl hEp)
        · exact Or.inr (Or.inr (Or.inl h))
        · exact Or.inr (Or.inr (Or.inr h))
      · subst hDn
        have hguard : guardedDep all d.properties E := by
          have := guardedDep_of_dirRef href hEne hE
          rwa [propsOf_eq_of_lookup hn] at this
        have hEG : E ∈ (genDeps all d.properties [] (insert D p)).2 :=
          genDeps_guarded hguard
        by_cases hEp : E ∈ p
        · exact Or.inr (Or.inl hEp)
        · by_cases hEn : E = D
          · right; right; right
            exact hEn ▸ Reaches.refl E
          · by_cases hP : hasProps all E
            · have hEnp : E ∉ insert D p := by
                rw [Finset.mem_insert]
                push_neg
                exact ⟨hEn, hEp⟩
              have hEw : hdr E ∈ (genDeps all d.properties [] (insert D p)).1 :=
                genDeps_header_of hS hE ⟨hEG, hEnp, hP⟩
              left
              rw [gi_main hmemn he]
              refine sublist_extend_right (sublist_extend_right ?_)
              exact sublist_pair_of_mem_parts (List.mem_append.mpr (Or.inl hEw))
                (List.Mem.head _)
            · exact Or.inr (Or.inr (Or.inl hP))
    · intro all props
      induction props with
      | nil =>
        intro lines p D E hS hD hE hEne href hN hmem
        rw [genDeps_nil] at hmem
        exact Or.inl hmem
      | cons pr0 rest ihp =>
        intro lines p D E hS hD hE hEne href hN hmem
        obtain ⟨nm, d⟩ := pr0
        rw [genDeps_cons] at hmem ⊢
        have hXacc := depStep_acc all d (lines, p)
        have hX1 : (depStep all d (lines, p)).1 =
            lines ++ (depStep all d ([], p)).1 := by
          rw [hXacc]
        have hX2 : (depStep all d (lines, p)).2 = (depStep all d ([], p)).2 := by
          rw [hXacc]
        have hfin := genDeps_acc all rest (depStep all d (lines, p)).1
          (depStep all d (lines, p)).2
        have hfin1 : (genDeps all rest (depStep all d (lines, p)).1
            (depStep all d (lines, p)).2).1 =
            (depStep all d (lines, p)).1 ++
              (genDeps all rest [] (depStep all d (lines, p)).2).1 := by
          rw [hfin]
        by_cases hDlines : hdr D ∈ lines
        · exact Or.inl hDlines
        · by_cases hDY : hdr D ∈ (depStep all d ([], p)).1
          · have Hgi : ∀ (y : String) (dd : SchemaNode) (q' : Finset String),
                all.lookup y = some dd → p ⊆ q' →
                hdr D ∈ (generate_interface all y dd q').1 →
                ([hdr E, hdr D] : List String).Sublist (generate_interface all y dd q').1
                  ∨ E ∈ q' ∨ ¬ hasProps all E ∨ Reaches all E D := by
              intro y dd q' hLk hsub hmm
              have hbound : 2 * ((insert y (keyset all)) \ q').card ≤ N := by
                rw [Finset.insert_eq_self.mpr (mem_keyset_of_lookup' hLk)]
                have := card_sdiff_le_of_subset (K := keyset all) hsub
                omega
              exact ih.1 all y dd q' D E hLk hS hD hE hEne href hbound hmm
            rcases depStep_order_of hS hE Hgi hDY with h | h | h | h
            · right; left
              rw [hfin1, hX1]
              exact sublist_extend_right (sublist_extend_left h)
            · exact Or.inr (Or.inr (Or.inl h))
            · exact Or.inr (Or.inr (Or.inr (Or.inl h)))
            · exact Or.inr (Or.inr (Or.inr (Or.inr h)))
          · have hbound2 : 2 * ((keyset all) \ (depStep all d (lines, p)).2).card + 1
                ≤ N + 1 := by
              have := card_sdiff_le_of_subset (K := keyset all)
                (show p ⊆ (depStep all d (lines, p)).2 from
                  depStep_subset (lines, p))
              omega
            rcases ihp (depStep all d (lines, p)).1 (depStep all d (lines, p)).2
              D E hS hD hE hEne href hbound2 hmem with h | h | h | h | h
            · rw [hX1] at h
              rcases List.mem_append.mp h with h' | h'
              · exact absurd h' hDlines
              · exact absurd h' hDY
            · exact Or.inr (Or.inl h)
            · by_cases hEp : E ∈ p
              · exact Or.inr (Or.inr (Or.inl hEp))
              · by_cases hP : hasProps all E
                · have hcnt := depStep_count all d lines p hS hE
                  have hEX : hdr E ∈ (depStep all d (lines, p)).1 :=
                    List.count_pos_iff.mp (by rw [hcnt, if_pos ⟨h, hEp, hP⟩]; omega)
                  have hDnX : hdr D ∉ (depStep all d (lines, p)).1 := by
                    rw [hX1]
                    intro hc
                    rcases List.mem_append.mp hc with h' | h'
                    · exact hDlines h'
                    · exact hDY h'
                  have hDS : hdr D ∈
                      (genDeps all rest [] (depStep all d (lines, p)).2).1 := by
                    have h' := hmem
                    rw [hfin1] at h'
                    rcases List.mem_append.mp h' with h'' | h''
                    · exact absurd h'' hDnX
                    · exact h''
                  right; left
                  rw [hfin1]
                  exact sublist_pair_of_mem_parts hEX hDS
                · exact Or.inr (Or.inr (Or.inr (Or.inl hP)))
            · exact Or.inr (Or.inr (Or.inr (Or.inl h)))
            · exact Or.inr (Or.inr (Or.inr (Or.inr h)))

theorem generateAll_cons_some {all : Defs} {r : String} {rest : List String}
    {lines : List String} {p : Finset String} {d : SchemaNode}
    (hL : all.lookup r = some d) :
    generateAll all (r :: rest) lines p =
      generateAll all rest (lines ++ (generate_interface all r d p).1)
        (generate_interface all r d p).2 := by
  rw [generateAll, hL]

theorem generateAll_order {all : Defs} {roots : List String} {D E : String}
    (hS : SNI all) (hD : D ∈ keyset all) (hE : E ∈ keyset all) (hEne : E ≠ "")
    (href : dirRef all D E) :
    ∀ (lines : List String) (p : Finset String),
      (∀ m, m ∈ p → hasProps all m → hdr m ∈ lines) →
      hdr D ∈ (generateAll all roots lines p).1 →
      hdr D ∈ lines
        ∨ ([hdr E, hdr D] : List String).Sublist (generateAll all roots lines p).1
        ∨ ¬ hasProps all E ∨ Reaches all E D := by
  induction roots with
  | nil =>
    intro lines p Hinv hmem
    rw [generateAll] at hmem
    exact Or.inl hmem
  | cons r rest ihr =>
    intro lines p Hinv hmem
    rw [generateAll] at hmem ⊢
    revert hmem
    cases hL : all.lookup r with
    | none =>
      intro hmem
      exact ihr lines p Hinv hmem
    | some dd =>
      intro hmem
      simp only at hmem ⊢
      have hacc := generateAll_acc all rest
        (lines ++ (generate_interface all r dd p).1) (generate_interface all r dd p).2
      have hacc1 : (generateAll all rest (lines ++ (generate_interface all r dd p).1)
          (generate_interface all r dd p).2).1 =
          (lines ++ (generate_interface all r dd p).1) ++
            (generateAll all rest [] (generate_interface all r dd p).2).1 := by
        rw [hacc]
      have Hinv' : ∀ m, m ∈ (generate_interface all r dd p).2 → hasProps all m →
          hdr m ∈ lines ++ (generate_interface all r dd p).1 := by
        intro m hm hP
        by_cases hmp : m ∈ p
        · exact List.mem_append.mpr (Or.inl (Hinv m hmp hP))
        · have hmK : m ∈ keyset all := by
            have h2 : m ∈ insert r (p ∪ keyset all) := generate_interface_keys hm
            rcases Finset.mem_insert.mp h2 with h | h
            · exact h ▸ mem_keyset_of_lookup' hL
            · rcases Finset.mem_union.mp h with h | h
              · exact absurd h hmp
              · exact h
          exact List.mem_append.mpr (Or.inr (gi_header_of hL hS hmK ⟨hm, hmp, hP⟩))
      rcases ihr (lines ++ (generate_interface all r dd p).1)
        (generate_interface all r dd p).2 Hinv' hmem with h | h | h | h
      · rcases List.mem_append.mp h with h' | h'
        · exact Or.inl h'
        · have hord := (order_bound (2 * ((insert r (keyset all)) \ p).card)).1
            all r dd p D E hL hS hD hE hEne href (le_refl _) h'
          rcases hord with h2 | h2 | h2 | h2
          · right; left
            rw [hacc1]
            exact sublist_extend_right (sublist_extend_left h2)
          · by_cases hP : hasProps all E
            · right; left
              rw [hacc1]
              exact sublist_extend_right
                (sublist_pair_of_mem_parts (Hinv E h2 hP) h')
            · exact Or.inr (Or.inr (Or.inl hP))
          · exact Or.inr (Or.inr (Or.inl h2))
          · exact Or.inr (Or.inr (Or.inr h2))
      · exact Or.inr (Or.inl h)
      · exact Or.inr (Or.inr (Or.inl h))
      · exact Or.inr (Or.inr (Or.inr h))

/-- C2 amended: for definitions `D` and `E` in the table where `D` references
`E` (directly or via an array item), if `D`'s declaration is emitted then
either `E`'s declaration appears strictly before `D`'s in the output, or `E`'s
declaration is entirely absent from the output, or `E` reaches `D` through a
chain of references (a reference cycle, where `E` is an in-progress ancestor
and its declaration closes after `D`'s). -/
theorem claim2_amended (all : Defs) (roots : List String) (D E : String)
    (hS : SNI all) (hD : D ∈ keyset all) (hE : E ∈ keyset all) (hEne : E ≠ "")
    (href : dirRef all D E) (hmem : hdr D ∈ (run all roots).1) :
    ([hdr E, hdr D] : List String).Sublist (run all roots).1
      ∨ hdr E ∉ (run all roots).1 ∨ Reaches all E D := by
  rcases generateAll_order hS hD hE hEne href [] ∅
    (fun m hm _ => absurd hm (Finset.not_mem_empty m))
    (show hdr D ∈ (generateAll all roots [] ∅).1 from hmem) with h | h | h | h
  · simp at h
  · exact Or.inl h
  · right; left
    intro hc
    have hcnt := run_count all roots hS hE
    rw [if_neg (by rintro ⟨_, h2⟩; exact h h2)] at hcnt
    exact absurd (List.count_eq_zero.mp hcnt) (by simpa using hc)
  · exact Or.inr (Or.inr h)

/-! ## Concrete evaluations for the counterexamples. -/

theorem depStep_dRefTo {all : Defs} {r : String} {dd : SchemaNode}
    (st : List String × Finset String) (hr : r ≠ "") (hL : all.lookup r = some dd) :
    depStep all (dRefTo r) st =
      (st.1 ++ (generate_interface all r dd st.2).1,
       st.2 ∪ (generate_interface all r dd st.2).2) := by
  unfold depStep arrStep refStep
  have hsome : (all.lookup (dRefTo r).ref).isSome := by
    show (all.lookup r).isSome
    rw [hL]
    rfl
  rw [if_pos (show (dRefTo r).ref ≠ "" from hr)]
  rw [dif_pos hsome]
  rw [if_neg (show ¬ ((dRefTo r).type = "array" ∧ itemRefOf (dRefTo r) ≠ "") from by
    rintro ⟨hc, _⟩
    exact absurd hc (by simp [dRefTo]))]
  unfold callStep
  have hget : (all.lookup (dRefTo r).ref).get hsome = dd := by
    show (all.lookup r).get _ = dd
    simp [hL]
  rw [hget]
  rfl

theorem depStep_dPrim {all : Defs} {t : String} (st : List String × Finset String) :
    depStep all (dPrim t) st = st := by
  unfold depStep arrStep refStep
  rw [if_neg (show ¬ (dPrim t).ref ≠ "" from by simp [dPrim])]
  rw [if_neg (show ¬ ((dPrim t).type = "array" ∧ itemRefOf (dPrim t) ≠ "") from by
    rintro ⟨_, hc⟩
    exact hc (by simp [dPrim, itemRefOf]))]

def nodeD : SchemaNode := ⟨[("e", dRefTo "E")], [], ""⟩

def nodeE : SchemaNode := ⟨[("d", dRefTo "D")], [], ""⟩

/-- A two-definition table with a reference cycle, used to exercise the
ordering claim. -/
def defsDE : Defs := [("D", nodeD), ("E", nodeE)]

theorem run_defsDE_eval :
    (run defsDE ["E"]).1 =
      ["export interface D \x7b", "  e?: E;", "\x7d", "",
       "export interface E \x7b", "  d?: D;", "\x7d", ""] := by
  have hqE : ("E" : String) ∉ (∅ : Finset String) := Finset.not_mem_empty _
  have hgiEinner : generate_interface defsDE "E" nodeE
      (insert "D" (insert "E" ∅)) = ([], insert "D" (insert "E" ∅)) :=
    gi_visited (by decide)
  have hgdD : genDeps defsDE nodeD.properties [] (insert "D" (insert "E" ∅)) =
      ([] ++ [], insert "D" (insert "E" ∅) ∪ (insert "D" (insert "E" ∅))) := by
    show genDeps defsDE [("e", dRefTo "E")] [] (insert "D" (insert "E" ∅)) = _
    rw [genDeps_cons]
    rw [depStep_dRefTo ([], insert "D" (insert "E" ∅)) (by decide)
      (show defsDE.lookup "E" = some nodeE from rfl)]
    rw [hgiEinner, genDeps_nil]
  have hgiD : generate_interface defsDE "D" nodeD (insert "E" ∅) =
      (([] ++ []) ++ declDoc nodeD.description ++ [hdr "D"] ++ fieldSection nodeD
        ++ ["\x7d", ""],
       insert "D" (insert "E" ∅) ∪ (insert "D" (insert "E" ∅))) := by
    rw [gi_main (by decide) (by simp [nodeD])]
    rw [hgdD]
  have hgdE : genDeps defsDE nodeE.properties [] (insert "E" ∅) =
      ([] ++ (([] ++ []) ++ declDoc nodeD.description ++ [hdr "D"]
          ++ fieldSection nodeD ++ ["\x7d", ""]),
       insert "E" ∅ ∪ (insert "D" (insert "E" ∅) ∪ (insert "D" (insert "E" ∅)))) := by
    show genDeps defsDE [("d", dRefTo "D")] [] (insert "E" ∅) = _
    rw [genDeps_cons]
    rw [depStep_dRefTo ([], insert "E" ∅) (by decide)
      (show defsDE.lookup "D" = some nodeD from rfl)]
    rw [hgiD, genDeps_nil]
  have hgiE : generate_interface defsDE "E" nodeE ∅ =
      (([] ++ (([] ++ []) ++ declDoc nodeD.description ++ [hdr "D"]
          ++ fieldSection nodeD ++ ["\x7d", ""]))
        ++ declDoc nodeE.description ++ [hdr "E"] ++ fieldSection nodeE
        ++ ["\x7d", ""],
       insert "E" ∅ ∪ (insert "D" (insert "E" ∅) ∪ (insert "D" (insert "E" ∅)))) := by
    rw [gi_main hqE (by simp [nodeE])]
    rw [hgdE]
  unfold run
  rw [generateAll_cons_some (show defsDE.lookup "E" = some nodeE from rfl)]
  rw [generateAll]
  simp only
  rw [hgiE]
  decide

/-- C2 counterexample: in the cyclic table `defsDE`, definition `D`
references `E`, both declarations are emitted in the run rooted at `E`, yet
`E`'s declaration does not appear before `D`'s — refuting "E's declaration
either appears strictly before D's or is entirely absent". -/
theorem claim2_counterexample :
    dirRef defsDE "D" "E"
    ∧ hdr "D" ∈ (run defsDE ["E"]).1
    ∧ hdr "E" ∈ (run defsDE ["E"]).1
    ∧ ¬ ([hdr "E", hdr "D"] : List String).Sublist (run defsDE ["E"]).1 := by
  refine ⟨⟨("e", dRefTo "E"), List.Mem.head _, Or.inl rfl⟩, ?_, ?_, ?_⟩
  · rw [run_defsDE_eval]
    decide
  · rw [run_defsDE_eval]
    decide
  · rw [run_defsDE_eval]
    decide

theorem claim2_amended_witness :
    ([hdr "E", hdr "D"] : List String).Sublist (run defsDE ["E"]).1
      ∨ hdr "E" ∉ (run defsDE ["E"]).1 ∨ Reaches defsDE "E" "D" :=
  claim2_amended defsDE ["E"] "D" "E" (by decide) (by decide) (by decide) (by decide)
    ⟨("e", dRefTo "E"), List.Mem.head _, Or.inl rfl⟩
    (by rw [run_defsDE_eval]; decide)

def nodeT8 : SchemaNode := ⟨[("a", dPrim "string")], [], "x\ny"⟩

/-- A one-definition table whose definition has a multi-line description. -/
def defsC8 : Defs := [("T", nodeT8)]

theorem run_defsC8_eval :
    (run defsC8 ["T"]).1 =
      ["/**", " * x\ny", " */", "export interface T \x7b", "  a?: string;",
       "\x7d", ""] := by
  have hgd : genDeps defsC8 nodeT8.properties [] (insert "T" ∅) =
      ([], insert "T" ∅) := by
    show genDeps defsC8 [("a", dPrim "string")] [] (insert "T" ∅) = _
    rw [genDeps_cons]
    rw [depStep_dPrim ([], insert "T" ∅)]
    rw [genDeps_nil]
  have hgi : generate_interface defsC8 "T" nodeT8 ∅ =
      ([] ++ declDoc nodeT8.description ++ [hdr "T"] ++ fieldSection nodeT8
        ++ ["\x7d", ""], insert "T" ∅) := by
    rw [gi_main (Finset.not_mem_empty _) (by simp [nodeT8])]
    rw [hgd]
  unfold run
  rw [generateAll_cons_some (show defsC8.lookup "T" = some nodeT8 from rfl)]
  rw [generateAll]
  simp only
  rw [hgi]
  decide

/-- C8 counterexample: the declaration-level documentation block is emitted
verbatim — for a definition whose description contains a line break, the
output contains the raw line `" * x\ny"` and not the normalized `" * x y"`
that the claim ("line breaks normalized to single spaces and trimmed" for
both levels) demands. -/
theorem claim8_counterexample :
    (" * x\ny") ∈ (run defsC8 ["T"]).1 ∧ (" * x y") ∉ (run defsC8 ["T"]).1 := by
  rw [run_defsC8_eval]
  exact ⟨by decide, by decide⟩

def dDesc : Descriptor := ⟨"string", "", "", none, [], " l1\nl2 "⟩

def nodeT : SchemaNode := ⟨[("a", dDesc)], [], "x\ny"⟩

/-- C8 amended: only a field's documentation line is normalized (CRLF and LF
replaced by single spaces, then leading/trailing whitespace trimmed, per
`cleanDesc`); the declaration-level documentation block renders the
definition's description verbatim on its comment line. -/
theorem claim8_amended (all : Defs) (n : String) (d : SchemaNode) (p : Finset String)
    (hn : n ∉ p) (hne : d.properties ≠ []) :
    (d.description ≠ "" → " * " ++ d.description ∈ (generate_interface all n d p).1)
    ∧ (∀ nm fd, (nm, fd) ∈ d.properties → fd.description ≠ "" →
        "  /** " ++ cleanDesc fd.description ++ " */" ∈ (generate_interface all n d p).1) := by
  rw [gi_main hn hne]
  constructor
  · intro h
    simp only
    have hmem : " * " ++ d.description ∈ declDoc d.description := by
      unfold declDoc
      rw [if_pos h]
      exact List.mem_cons.mpr (Or.inr (List.Mem.head _))
    exact List.mem_append.mpr (Or.inl (List.mem_append.mpr (Or.inl
      (List.mem_append.mpr (Or.inl (List.mem_append.mpr (Or.inr hmem)))))))
  · intro nm fd hmem hdesc
    simp only
    have h1 : (nm, fd) ∈ sortProps d.properties :=
      ((List.perm_insertionSort keyLe d.properties).mem_iff).mpr hmem
    have h2 : "  /** " ++ cleanDesc fd.description ++ " */" ∈
        fieldLines d.required nm fd := by
      unfold fieldLines
      rw [if_pos hdesc]
      exact List.mem_append.mpr (Or.inl (List.Mem.head _))
    have h3 : "  /** " ++ cleanDesc fd.description ++ " */" ∈ fieldSection d := by
      unfold fieldSection
      apply List.mem_flatten.mpr
      exact ⟨fieldLines d.required nm fd,
        List.mem_map_of_mem (fun pr => fieldLines d.required pr.1 pr.2) h1, h2⟩
    exact List.mem_append.mpr (Or.inl (List.mem_append.mpr (Or.inr h3)))

theorem claim8_amended_witness :
    (" * " ++ nodeT.description ∈ (generate_interface defsC8 "T2" nodeT ∅).1)
    ∧ ("  /** " ++ cleanDesc dDesc.description ++ " */" ∈
        (generate_interface defsC8 "T2" nodeT ∅).1) :=
  ⟨(claim8_amended defsC8 "T2" nodeT ∅ (Finset.not_mem_empty _) (by simp [nodeT])).1
      (by decide),
   (claim8_amended defsC8 "T2" nodeT ∅ (Finset.not_mem_empty _) (by simp [nodeT])).2
      "a" dDesc (List.Mem.head _) (by decide)⟩
